import Mathlib

/-!
Verification of the custom-error-pages default backend
(`images/custom-error-pages/rootfs/main.go`, `metrics.go`, and the
Accept-aware handler variant of the same program): content-type and file
extension resolution, two-tier error-file lookup with status-class
fallback, HTTP response assembly, and per-protocol request metrics,
shallowly embedded in Lean.

Go standard-library behavior the program relies on (`strings`, `strconv`,
`mime`, `sort.Slice`, `net/http` response-writer semantics) is modelled
explicitly below, each model documented at its definition.
-/

set_option maxRecDepth 8000

namespace CustomError

/-- Characters treated as whitespace by the model of Go `strings.TrimSpace`
(the ASCII whitespace set; exotic Unicode space classes are not modelled). -/
def isGoSpace (c : Char) : Bool :=
  c = ' ' || c = '\t' || c = '\n' || c = '\r' || c = '\x0b' || c = '\x0c'

/-- Model of Go `strings.TrimSpace`. -/
def goTrimSpace (s : String) : String :=
  ⟨((s.data.dropWhile isGoSpace).reverse.dropWhile isGoSpace).reverse⟩

/-- Split a character list on a separator character, keeping empty segments,
as Go `strings.Split` does for a one-character separator. -/
def goSplitChar (sep : Char) : List Char → List (List Char)
  | [] => [[]]
  | c :: rest =>
    let r := goSplitChar sep rest
    if c = sep then [] :: r
    else
      match r with
      | [] => [[c]]
      | h :: t => (c :: h) :: t

/-- Model of Go `strings.Split(s, sep)` for the one-character separators
used by the program (`","`, `";"`, `"/"`). -/
def goSplit (s : String) (sep : Char) : List String :=
  (goSplitChar sep s.data).map fun l => ⟨l⟩

/-- Whether the first list is a prefix of the second. -/
def listIsPre : List Char → List Char → Bool
  | [], _ => true
  | _ :: _, [] => false
  | p :: ps, c :: cs => p = c && listIsPre ps cs

/-- Split a character list at the first occurrence of a pattern, returning
the segments before and after the pattern; `none` when the pattern does not
occur. This models Go `strings.Index` together with the two slicings
`part[:qIndex]` / `part[qIndex+3:]` the program performs on its result. -/
def findSub (pat : List Char) : List Char → Option (List Char × List Char)
  | [] => if pat.isEmpty then some ([], []) else none
  | c :: rest =>
    if listIsPre pat (c :: rest) then some ([], (c :: rest).drop pat.length)
    else
      match findSub pat rest with
      | some (pre, post) => some (c :: pre, post)
      | none => none

/-- String layer over `findSub`. -/
def splitFirstSubstr (s pat : String) : Option (String × String) :=
  (findSub pat.data s.data).map fun p => (⟨p.1⟩, ⟨p.2⟩)

/-- Whether `pat` occurs as a substring of `s` (Go `strings.Index ≠ -1`). -/
def hasSubstr (s pat : String) : Bool :=
  (splitFirstSubstr s pat).isSome

/-- Value of a decimal digit run. -/
def digitsVal (l : List Char) : Nat :=
  l.foldl (fun a c => 10 * a + (c.toNat - '0'.toNat)) 0

/-- Non-empty run of decimal digits. -/
def allDigits (l : List Char) : Bool :=
  !l.isEmpty && l.all (·.isDigit)

/-- Model of Go `strconv.Atoi` (= `ParseInt(s, 10, 0)` with 64-bit `int`):
an optional sign followed by a non-empty run of decimal digits whose value
fits in `int64`; anything else is an error, modelled as `none`. -/
def parseAtoi (s : String) : Option Int :=
  let p : Bool × List Char :=
    match s.data with
    | '+' :: rest => (false, rest)
    | '-' :: rest => (true, rest)
    | l => (false, l)
  if allDigits p.2 then
    let v : Int := if p.1 then -(digitsVal p.2 : Int) else (digitsVal p.2 : Int)
    if -(2 ^ 63) ≤ v ∧ v ≤ 2 ^ 63 - 1 then some v else none
  else none

/-- An exact decimal fraction `num / 10 ^ dexp`, the value representation
used for parsed quality values. Decimal strings denote such fractions
exactly, and comparing them by cross-multiplication is computable without
rational normalization. -/
structure Qval where
  num : Int
  dexp : Nat
deriving DecidableEq

instance : Inhabited Qval := ⟨⟨1, 0⟩⟩

/-- Ten to a natural power, as an integer. -/
def tenPow (k : Nat) : Int :=
  Int.ofNat (10 ^ k)

/-- Strict value comparison of decimal fractions (`a < b`). -/
def Qval.blt (a b : Qval) : Bool :=
  a.num * tenPow b.dexp < b.num * tenPow a.dexp

/-- Non-strict value comparison of decimal fractions (`a ≤ b`). -/
def Qval.ble (a b : Qval) : Bool :=
  a.num * tenPow b.dexp ≤ b.num * tenPow a.dexp

/-- Value equality of decimal fractions. -/
def Qval.veq (a b : Qval) : Bool :=
  a.num * tenPow b.dexp = b.num * tenPow a.dexp

/-- Rational value of a decimal fraction; used only in proofs. -/
def Qval.val (a : Qval) : ℚ :=
  (a.num : ℚ) / ((10 : ℚ) ^ a.dexp)

/-- Largest finite `float64` value, as an exact decimal-free integer
fraction. -/
def maxFloat64 : Qval :=
  ⟨Int.ofNat ((2 ^ 53 - 1) * 2 ^ 971), 0⟩

/-- Model of Go `strconv.ParseFloat(s, 64)` restricted to plain decimal
syntax: an optional sign, decimal digits with an optional fraction part,
and an optional decimal exponent. The value is kept as an exact decimal
fraction rather than being rounded to binary64; `inf`/`nan` spellings,
hexadecimal floats and digit underscores are not modelled. Values past the
float64 overflow threshold are a range error (`none`), as in Go. -/
def parseGoFloat (s : String) : Option Qval :=
  let p : Bool × List Char :=
    match s.data with
    | '+' :: rest => (false, rest)
    | '-' :: rest => (true, rest)
    | l => (false, l)
  let ip := p.2.takeWhile (·.isDigit)
  let l2 := p.2.dropWhile (·.isDigit)
  let fpl3 : List Char × List Char :=
    match l2 with
    | '.' :: r => (r.takeWhile (·.isDigit), r.dropWhile (·.isDigit))
    | _ => ([], l2)
  let fp := fpl3.1
  if ip.isEmpty && fp.isEmpty then none
  else
    let expRest : Option (Int × List Char) :=
      match fpl3.2 with
      | 'e' :: r =>
        match r with
        | '+' :: ds => if allDigits (ds.takeWhile (·.isDigit)) && ds.dropWhile (·.isDigit) = [] then some ((digitsVal ds : Int), []) else none
        | '-' :: ds => if allDigits (ds.takeWhile (·.isDigit)) && ds.dropWhile (·.isDigit) = [] then some (-(digitsVal ds : Int), []) else none
        | ds => if allDigits (ds.takeWhile (·.isDigit)) && ds.dropWhile (·.isDigit) = [] then some ((digitsVal ds : Int), []) else none
      | 'E' :: r =>
        match r with
        | '+' :: ds => if allDigits (ds.takeWhile (·.isDigit)) && ds.dropWhile (·.isDigit) = [] then some ((digitsVal ds : Int), []) else none
        | '-' :: ds => if allDigits (ds.takeWhile (·.isDigit)) && ds.dropWhile (·.isDigit) = [] then some (-(digitsVal ds : Int), []) else none
        | ds => if allDigits (ds.takeWhile (·.isDigit)) && ds.dropWhile (·.isDigit) = [] then some ((digitsVal ds : Int), []) else none
      | [] => some (0, [])
      | _ => none
    match expRest with
    | none => none
    | some (e, _) =>
      let mant : Nat := digitsVal (ip ++ fp)
      let exp : Int := e - (fp.length : Int)
      let mag : Qval :=
        if 0 ≤ exp then ⟨(mant : Int) * tenPow exp.toNat, 0⟩
        else ⟨(mant : Int), (-exp).toNat⟩
      if Qval.blt maxFloat64 mag then none
      else some (if p.1 then ⟨-mag.num, mag.dexp⟩ else mag)

/-- The `tspecials` characters of the token syntax used by Go `mime`. -/
def isTSpecial (c : Char) : Bool :=
  "()<>@,;:\\\"/[]?=".data.contains c

/-- Token characters per Go `mime.isTokenChar`. -/
def isTokenChar (c : Char) : Bool :=
  0x20 < c.toNat && c.toNat < 0x7f && !isTSpecial c

/-- Non-empty run of token characters (Go `mime.consumeToken` result). -/
def isMimeToken (l : List Char) : Bool :=
  !l.isEmpty && l.all isTokenChar

/-- The `type "/" subtype` shape check done by Go `mime.ParseMediaType`
(`checkMediaTypeDisposition`): a token, optionally followed by a slash and
a second token, with nothing after. -/
def validMediaTypeShape (m : String) : Bool :=
  match goSplitChar '/' m.data with
  | [t] => isMimeToken t
  | [t, sub] => isMimeToken t && isMimeToken sub
  | _ => false

/-- Simplified model of one `;`-separated parameter accepted by
Go `mime.ParseMediaType`: `attribute=value` with token attribute and token
value. Quoted-string values and escapes are not modelled; the program only
ever passes parameter-free media types to the lookup. -/
def validParamSeg (seg : String) : Bool :=
  match findSub ['='] (goTrimSpace seg).data with
  | some (k, v) => isMimeToken k && isMimeToken v
  | none => false

/-- Model of Go `mime.ParseMediaType` restricted to what
`mime.ExtensionsByType` needs from it: the lower-cased, whitespace-trimmed
base `type/subtype` with parameters dropped, or `none` for a parse error. -/
def parseMediaTypeBase (v : String) : Option String :=
  match goSplitChar ';' v.data with
  | [] => none
  | base :: params =>
    let m : String := ⟨(goTrimSpace ⟨base⟩).data.map Char.toLower⟩
    if validMediaTypeShape m && params.all (fun p => validParamSeg ⟨p⟩) then some m else none

/-- The built-in extension table of the Go `mime` package
(`builtinTypesLower`). The program runs in a scratch container with no
system `mime.types` files, so this table is the whole mapping. -/
def builtinTypesLower : List (String × String) :=
  [(".avif", "image/avif"),
   (".css", "text/css; charset=utf-8"),
   (".gif", "image/gif"),
   (".htm", "text/html; charset=utf-8"),
   (".html", "text/html; charset=utf-8"),
   (".jpeg", "image/jpeg"),
   (".jpg", "image/jpeg"),
   (".js", "text/javascript; charset=utf-8"),
   (".json", "application/json"),
   (".mjs", "text/javascript; charset=utf-8"),
   (".pdf", "application/pdf"),
   (".png", "image/png"),
   (".svg", "image/svg+xml"),
   (".wasm", "application/wasm"),
   (".webp", "image/webp"),
   (".xml", "text/xml; charset=utf-8")]

/-- Base media type under which a table entry is registered (its value with
the parameter section stripped), as computed when Go `mime` builds its
type-to-extensions index. -/
def registeredBase (s : String) : String :=
  match goSplitChar ';' s.data with
  | [] => ""
  | base :: _ => ⟨(goTrimSpace ⟨base⟩).data.map Char.toLower⟩

/-- Model of Go `mime.ExtensionsByType`: the extensions (with leading dot,
in sorted order — the table above is sorted by extension) registered for
the given media type. `[]` covers both an error and an empty result, which
the program treats alike (`err != nil || len(cext) == 0` and
`len(cext) > 0`). -/
def extensionsByType (typ : String) : List String :=
  match parseMediaTypeBase typ with
  | none => []
  | some just => (builtinTypesLower.filter (fun p => registeredBase p.2 == just)).map (·.1)

/-! ### Port of Go `sort.Slice`

The program sorts its Accept-header entries with `sort.Slice`, which is
pattern-defeating quicksort (`pdqsort_func` in the Go `sort` package) and
is not a stable sort. The functions below port that algorithm faithfully;
the slice is modelled as a `List` indexed by position, and every data
mutation goes through `aswap`. Loops whose termination measure is not
structural carry an explicit fuel argument; the top-level entry point
supplies fuel exceeding the algorithm's `(b - a) + limit` loop potential,
so the fuel never runs out on a real execution. -/

/-- Element at index `i` (Go `data[i]`); out-of-range reads, which the
algorithm never performs, return the default element. -/
def aget [Inhabited α] (l : List α) (i : Nat) : α :=
  l.getD i default

/-- Swap of the elements at indices `i` and `j` (Go `data.Swap(i, j)`). -/
def aswap [Inhabited α] (l : List α) (i j : Nat) : List α :=
  if i < l.length ∧ j < l.length then (l.set i (aget l j)).set j (aget l i) else l

/-- Inner loop of Go `insertionSort_func`:
`for j := i; j > a && data.Less(j, j-1); j-- { data.Swap(j, j-1) }`. -/
def insertionInner [Inhabited α] (less : α → α → Bool) (a : Nat) : Nat → List α → List α
  | 0, l => l
  | j + 1, l =>
    if a < j + 1 ∧ less (aget l (j + 1)) (aget l j) then
      insertionInner less a j (aswap l (j + 1) j)
    else l

/-- Outer loop of Go `insertionSort_func`, iterating `i` upward with fuel
`k` counting the remaining iterations. -/
def insertionOuter [Inhabited α] (less : α → α → Bool) (b : Nat) (a : Nat) : Nat → Nat → List α → List α
  | 0, _, l => l
  | k + 1, i, l =>
    if i < b then insertionOuter less b a k (i + 1) (insertionInner less a i l)
    else l

/-- Go `insertionSort_func(data, a, b)`. -/
def goInsertionSort [Inhabited α] (less : α → α → Bool) (l : List α) (a b : Nat) : List α :=
  insertionOuter less b a (b - (a + 1)) (a + 1) l

/-- Go `siftDown_func(data, lo, hi, first)`; the root index strictly grows,
bounded by `hi`, so `hi + 1` fuel suffices. -/
def siftDownLoop [Inhabited α] (less : α → α → Bool) (first hi : Nat) : Nat → Nat → List α → List α
  | 0, _, l => l
  | fuel + 1, root, l =>
    let child := 2 * root + 1
    if child ≥ hi then l
    else
      let child := if child + 1 < hi ∧ less (aget l (first + child)) (aget l (first + child + 1)) then child + 1 else child
      if ¬ less (aget l (first + root)) (aget l (first + child)) then l
      else siftDownLoop less first hi fuel child (aswap l (first + root) (first + child))

/-- Go `siftDown_func`. -/
def goSiftDown [Inhabited α] (less : α → α → Bool) (l : List α) (lo hi first : Nat) : List α :=
  siftDownLoop less first hi (hi + 1) lo l

/-- Go `heapSort_func(data, a, b)`: build a max-heap over `[a, b)`, then pop
the maximum to the end repeatedly. -/
def goHeapSort [Inhabited α] (less : α → α → Bool) (l : List α) (a b : Nat) : List α :=
  let first := a
  let hi := b - a
  let l1 := ((List.range ((hi - 1) / 2 + 1)).reverse).foldl
    (fun acc i => goSiftDown less acc i hi first) l
  ((List.range hi).reverse).foldl
    (fun acc i => goSiftDown less (aswap acc first (first + i)) 0 i first) l1

/-- Go `reverseRange_func(data, a, b)`. -/
def reverseRangeLoop [Inhabited α] : Nat → Nat → Nat → List α → List α
  | 0, _, _, l => l
  | fuel + 1, i, j, l =>
    if i < j then reverseRangeLoop fuel (i + 1) (j - 1) (aswap l i j) else l

/-- Go `reverseRange_func`. -/
def goReverseRange [Inhabited α] (l : List α) (a b : Nat) : List α :=
  reverseRangeLoop (b - a) a (b - 1) l

/-- Go `order2_func(data, a, b, &swaps)`: orders two indices by the data
they point at, counting a swap when it flips them. Pure: no data mutation. -/
def order2 [Inhabited α] (less : α → α → Bool) (l : List α) (a b swaps : Nat) : Nat × Nat × Nat :=
  if less (aget l b) (aget l a) then (b, a, swaps + 1) else (a, b, swaps)

/-- Go `median_func(data, a, b, c, &swaps)`: index of the median element. -/
def goMedian [Inhabited α] (less : α → α → Bool) (l : List α) (a b c swaps : Nat) : Nat × Nat :=
  let r1 := order2 less l a b swaps
  let r2 := order2 less l r1.2.1 c r1.2.2
  let r3 := order2 less l r1.1 r2.1 r2.2.2
  (r3.2.1, r3.2.2)

/-- Go `medianAdjacent_func(data, a, &swaps)`. -/
def goMedianAdjacent [Inhabited α] (less : α → α → Bool) (l : List α) (a swaps : Nat) : Nat × Nat :=
  goMedian less l (a - 1) a (a + 1) swaps

/-- Sortedness hints of the Go `sort` package. -/
inductive GoHint
  | increasing
  | decreasing
  | unknown
deriving DecidableEq

/-- Go `choosePivot_func(data, a, b)`: pivot index plus a hint derived from
the number of comparison flips seen while taking medians. Pure. -/
def goChoosePivot [Inhabited α] (less : α → α → Bool) (l : List α) (a b : Nat) : Nat × GoHint :=
  let len := b - a
  let i := a + len / 4 * 1
  let j := a + len / 4 * 2
  let k := a + len / 4 * 3
  if 8 ≤ len then
    let r : Nat × Nat × Nat × Nat :=
      if 50 ≤ len then
        let m1 := goMedianAdjacent less l i 0
        let m2 := goMedianAdjacent less l j m1.2
        let m3 := goMedianAdjacent less l k m2.2
        (m1.1, m2.1, m3.1, m3.2)
      else (i, j, k, 0)
    let m := goMedian less l r.1 r.2.1 r.2.2.1 r.2.2.2
    match m.2 with
    | 0 => (m.1, GoHint.increasing)
    | 12 => (m.1, GoHint.decreasing)
    | _ => (m.1, GoHint.unknown)
  else
    (j, GoHint.increasing)

/-- Advance `i` while `i ≤ j ∧ data.Less(i, a)` (first scan loop of
Go `partition_func`); fuel-counted. -/
def partAdvI [Inhabited α] (less : α → α → Bool) (l : List α) (a j : Nat) : Nat → Nat → Nat
  | 0, i => i
  | fuel + 1, i =>
    if i ≤ j ∧ less (aget l i) (aget l a) then partAdvI less l a j fuel (i + 1) else i

/-- Retreat `j` while `i ≤ j ∧ ¬ data.Less(j, a)` (second scan loop of
Go `partition_func`); fuel-counted. -/
def partAdvJ [Inhabited α] (less : α → α → Bool) (l : List α) (a i : Nat) : Nat → Nat → Nat
  | 0, j => j
  | fuel + 1, j =>
    if i ≤ j ∧ ¬ less (aget l j) (aget l a) then partAdvJ less l a i fuel (j - 1) else j

/-- Main loop of Go `partition_func` after the first crossing swap. -/
def partitionLoop [Inhabited α] (less : α → α → Bool) (a : Nat) : Nat → Nat → Nat → List α → List α × Nat
  | 0, _, j, l => (l, j)
  | fuel + 1, i, j, l =>
    let i1 := partAdvI less l a j (j + 2 - i) i
    let j1 := partAdvJ less l a i1 (j + 1) j
    if i1 > j1 then (l, j1)
    else partitionLoop less a fuel (i1 + 1) (j1 - 1) (aswap l i1 j1)

/-- Go `partition_func(data, a, b, pivot)`: Hoare partition around the
element moved to `a`; returns the new pivot position and whether the range
was already partitioned. -/
def goPartition [Inhabited α] (less : α → α → Bool) (l : List α) (a b pivot : Nat) : List α × Nat × Bool :=
  let l0 := aswap l a pivot
  let i := partAdvI less l0 a (b - 1) (b + 1 - a) (a + 1)
  let j := partAdvJ less l0 a i b (b - 1)
  if i > j then (aswap l0 j a, j, true)
  else
    let r := partitionLoop less a (b - a) (i + 1) (j - 1) (aswap l0 i j)
    (aswap r.1 r.2 a, r.2, false)

/-- Advance `i` while `i ≤ j ∧ ¬ data.Less(a, i)` (first scan loop of
Go `partitionEqual_func`). -/
def partEqAdvI [Inhabited α] (less : α → α → Bool) (l : List α) (a j : Nat) : Nat → Nat → Nat
  | 0, i => i
  | fuel + 1, i =>
    if i ≤ j ∧ ¬ less (aget l a) (aget l i) then partEqAdvI less l a j fuel (i + 1) else i

/-- Retreat `j` while `i ≤ j ∧ data.Less(a, j)` (second scan loop of
Go `partitionEqual_func`). -/
def partEqAdvJ [Inhabited α] (less : α → α → Bool) (l : List α) (a i : Nat) : Nat → Nat → Nat
  | 0, j => j
  | fuel + 1, j =>
    if i ≤ j ∧ less (aget l a) (aget l j) then partEqAdvJ less l a i fuel (j - 1) else j

/-- Loop of Go `partitionEqual_func`. -/
def partitionEqualLoop [Inhabited α] (less : α → α → Bool) (a : Nat) : Nat → Nat → Nat → List α → List α × Nat
  | 0, i, _, l => (l, i)
  | fuel + 1, i, j, l =>
    let i1 := partEqAdvI less l a j (j + 2 - i) i
    let j1 := partEqAdvJ less l a i1 (j + 1) j
    if i1 > j1 then (l, i1)
    else partitionEqualLoop less a fuel (i1 + 1) (j1 - 1) (aswap l i1 j1)

/-- Go `partitionEqual_func(data, a, b, pivot)`: groups elements equal to
the pivot at the front, returning the first index past them. -/
def goPartitionEqual [Inhabited α] (less : α → α → Bool) (l : List α) (a b pivot : Nat) : List α × Nat :=
  let l0 := aswap l a pivot
  partitionEqualLoop less a (b + 1 - a) (a + 1) (b - 1) l0

/-- Advance `i` while `i < b ∧ ¬ data.Less(i, i-1)` (scan loop of
Go `partialInsertionSort_func`). -/
def paiAdvance [Inhabited α] (less : α → α → Bool) (l : List α) (b : Nat) : Nat → Nat → Nat
  | 0, i => i
  | fuel + 1, i =>
    if i < b ∧ ¬ less (aget l i) (aget l (i - 1)) then paiAdvance less l b fuel (i + 1) else i

/-- Left shift loop of Go `partialInsertionSort_func`:
`for j := i - 1; j >= 1; j--`, stopping at the first ordered pair. -/
def paiShiftLeft [Inhabited α] (less : α → α → Bool) : Nat → List α → List α
  | 0, l => l
  | j + 1, l =>
    if ¬ less (aget l (j + 1)) (aget l j) then l
    else paiShiftLeft less j (aswap l (j + 1) j)

/-- Right shift loop of Go `partialInsertionSort_func`:
`for j := i + 1; j < b; j++`, stopping at the first ordered pair. -/
def paiShiftRight [Inhabited α] (less : α → α → Bool) (b : Nat) : Nat → Nat → List α → List α
  | 0, _, l => l
  | fuel + 1, j, l =>
    if j < b then
      if ¬ less (aget l j) (aget l (j - 1)) then l
      else paiShiftRight less b fuel (j + 1) (aswap l j (j - 1))
    else l

/-- Steps loop of Go `partialInsertionSort_func` (`maxSteps = 5`,
`shortestShifting = 50`): returns whether the range ended up sorted,
together with the (possibly shifted) data. -/
def paiSteps [Inhabited α] (less : α → α → Bool) (a b : Nat) : Nat → Nat → List α → Bool × List α
  | 0, _, l => (false, l)
  | steps + 1, i, l =>
    let i1 := paiAdvance less l b (b + 1 - i) i
    if i1 = b then (true, l)
    else if b - a < 50 then (false, l)
    else
      let l1 := aswap l i1 (i1 - 1)
      let l2 := if i1 - a ≥ 2 then paiShiftLeft less (i1 - 1) l1 else l1
      let l3 := if b - i1 ≥ 2 then paiShiftRight less b (b - (i1 + 1)) (i1 + 1) l2 else l2
      paiSteps less a b steps i1 l3

/-- Go `partialInsertionSort_func(data, a, b)`. -/
def goPartialInsertionSort [Inhabited α] (less : α → α → Bool) (l : List α) (a b : Nat) : Bool × List α :=
  paiSteps less a b 5 (a + 1) l

/-- One step of the xorshift PRNG used by Go `sort` (`xorshift.Next`),
on `uint64` arithmetic. -/
def xorshiftNext (r : Nat) : Nat :=
  let r1 := (r ^^^ (r <<< 13)) % 2 ^ 64
  let r2 := r1 ^^^ (r1 >>> 7)
  (r2 ^^^ (r2 <<< 17)) % 2 ^ 64

/-- Fuelled halving loop computing the bit length of a value. -/
def bitsLenAux : Nat → Nat → Nat
  | _, 0 => 0
  | 0, _ + 1 => 0
  | fuel + 1, n + 1 => bitsLenAux fuel ((n + 1) / 2) + 1

/-- Go `bits.Len` on a non-negative value. -/
def goBitsLen (n : Nat) : Nat :=
  bitsLenAux n n

/-- Go `nextPowerOfTwo(length)` = `1 << bits.Len(uint(length))`. -/
def nextPowerOfTwo (len : Nat) : Nat :=
  2 ^ goBitsLen len

/-- Go `breakPatterns_func(data, a, b)`: deterministically seeded random
swaps of three positions near the middle, applied when a partition came out
unbalanced. -/
def goBreakPatterns [Inhabited α] (l : List α) (a b : Nat) : List α :=
  let len := b - a
  if 8 ≤ len then
    let modulus := nextPowerOfTwo len
    let idx := a + (len / 4) * 2 - 1
    let step := fun (st : Nat × List α) (i : Nat) =>
      let rnd := xorshiftNext st.1
      let other := rnd % modulus
      let other := if other ≥ len then other - len else other
      (rnd, aswap st.2 (idx - 1 + i) (a + other))
    ([0, 1, 2].foldl step (len, l)).2
  else l

/-- Go `pdqsort_func(data, a, b, limit)`. The Go `for` loop is encoded as a
tail call that keeps the updated `a`, `b`, `limit`, `wasBalanced`,
`wasPartitioned`; both the loop back-edge and the recursive call on the
shorter side consume one unit of fuel. After a partition the pivot at `mid`
is in final position: the shorter side of `[a, mid)` / `[mid+1, b)` is
sorted recursively and the loop continues on the other (`a = mid + 1`
resp. `b = mid`); `limit` is decremented only in the `!wasBalanced`
branch. -/
def pdqsortRec [Inhabited α] (less : α → α → Bool) : Nat → List α → Nat → Nat → Nat → Bool → Bool → List α
  | 0, l, _, _, _, _, _ => l
  | fuel + 1, l, a, b, limit, wasBalanced, wasPartitioned =>
    let len := b - a
    if len ≤ 12 then goInsertionSort less l a b
    else if limit = 0 then goHeapSort less l a b
    else
      let bp : List α × Nat :=
        if ¬ wasBalanced then (goBreakPatterns l a b, limit - 1) else (l, limit)
      let l1 := bp.1
      let limit1 := bp.2
      let pv := goChoosePivot less l1 a b
      let rv : List α × Nat × GoHint :=
        if pv.2 = GoHint.decreasing then
          (goReverseRange l1 a b, (b - 1) - (pv.1 - a), GoHint.increasing)
        else (l1, pv.1, pv.2)
      let l2 := rv.1
      let pivot := rv.2.1
      let hint := rv.2.2
      let ps : Bool × List α :=
        if wasBalanced ∧ wasPartitioned ∧ hint = GoHint.increasing then
          goPartialInsertionSort less l2 a b
        else (false, l2)
      if ps.1 then ps.2
      else
        let l3 := ps.2
        if 0 < a ∧ ¬ less (aget l3 (a - 1)) (aget l3 pivot) then
          let pe := goPartitionEqual less l3 a b pivot
          pdqsortRec less fuel pe.1 pe.2 b limit1 wasBalanced wasPartitioned
        else
          let pr := goPartition less l3 a b pivot
          let l4 := pr.1
          let mid := pr.2.1
          let alreadyPartitioned := pr.2.2
          let leftLen := mid - a
          let rightLen := b - mid
          let balanceThreshold := len / 8
          let newBalanced := decide (min leftLen rightLen ≥ balanceThreshold)
          if leftLen < rightLen then
            let l5 := pdqsortRec less fuel l4 a mid limit1 true true
            pdqsortRec less fuel l5 (mid + 1) b limit1 newBalanced alreadyPartitioned
          else
            let l5 := pdqsortRec less fuel l4 (mid + 1) b limit1 true true
            pdqsortRec less fuel l5 a mid limit1 newBalanced alreadyPartitioned

/-- Go `sort.Slice(x, less)`: `pdqsort(data, 0, length, bits.Len(length))`,
with fuel covering the algorithm's `(b - a) + limit` loop potential. -/
def goSortSlice [Inhabited α] (less : α → α → Bool) (l : List α) : List α :=
  pdqsortRec less (2 * (l.length + goBitsLen l.length + 2)) l 0 l.length (goBitsLen l.length) true true

/-! ### The Accept-header parser and format selection

Embedding of `parseAcceptHeader` and `selectFormat` from the Accept-aware
handler variant. Qualities are the exact rationals produced by the
`strconv.ParseFloat` model above. -/

/-- The comparison closure passed to `sort.Slice`:
`typeQualityPairs[i].quality > typeQualityPairs[j].quality`. -/
def qGreater (u v : String × Qval) : Bool :=
  Qval.blt v.2 u.2

/-- One iteration of the token loop in `parseAcceptHeader`: trim the
comma-separated part, split at the first `";q="` marker, parse the quality
(defaulting to `1.0` when the marker is absent or the value unparsable). -/
def parsePart (part : String) : String × Qval :=
  let p := goTrimSpace part
  match splitFirstSubstr p ";q=" with
  | none => (p, ⟨1, 0⟩)
  | some (mt, qv) =>
    match parseGoFloat qv with
    | some q => (mt, q)
    | none => (mt, ⟨1, 0⟩)

/-- The media-type/quality pairs built by `parseAcceptHeader` before
sorting. -/
def acceptPairs (header : String) : List (String × Qval) :=
  (goSplit header ',').map parsePart

/-- `parseAcceptHeader(header)`: split on commas, parse each token, sort by
descending quality with `sort.Slice`, project the media types. -/
def parseAcceptHeader (header : String) : List String :=
  (goSortSlice qGreater (acceptPairs header)).map (·.1)

/-- Loop body of `selectFormat`: first media type among the candidates that
is one of the two supported types and has a registered extension; when none
matches, the default format with its first extension — where the unguarded
`cext[0]` panics if the default format has no extension, modelled as
`none`. -/
def selectFormatGo (dflt : String) : List String → Option (String × String)
  | [] =>
    match extensionsByType dflt with
    | e :: _ => some (dflt, e)
    | [] => none
  | m :: rest =>
    if m = "application/json" ∨ m = "text/html" then
      match extensionsByType m with
      | e :: _ => some (m, e)
      | [] => selectFormatGo dflt rest
    else selectFormatGo dflt rest

/-- `selectFormat(acceptHeader, defaultFormat)`. -/
def selectFormat (acceptHeader defaultFormat : String) : Option (String × String) :=
  selectFormatGo defaultFormat (parseAcceptHeader acceptHeader)

/-! ### The error handler

Embedding of `errorHandler` (Accept-aware variant). The filesystem is a
function from path to optional file contents (`none` = `os.Open` fails).
The response writer follows the documented `net/http` semantics: the
status line and headers are frozen by the first `WriteHeader` call, and any
later `WriteHeader` or header mutation is superfluous and has no effect on
the wire. The handler result additionally records, as ghost data, the file
paths passed to `os.Open` in order, and whether the metrics lines at the
bottom of the handler were reached. -/

/-- Request headers the handler reads (absent header = `""`, as returned by
Go `Header.Get`), plus the HTTP protocol version. -/
structure GoRequest where
  xFormat : String
  xCode : String
  accept : String
  protoMajor : Nat
  protoMinor : Nat
deriving DecidableEq

/-- Observable response: headers as frozen at the first `WriteHeader`,
the status of that call, and the accumulated body bytes. -/
structure GoResponse where
  headers : List (String × String)
  status : Option Int
  body : String
deriving DecidableEq

/-- Empty response writer. -/
def GoResponse.empty : GoResponse :=
  ⟨[], none, ""⟩

/-- Set or replace a header value in an association list. -/
def upsertHeader (k v : String) : List (String × String) → List (String × String)
  | [] => [(k, v)]
  | (k', v') :: rest => if k' = k then (k, v) :: rest else (k', v') :: upsertHeader k v rest

/-- `w.Header().Set(k, v)`: effective only before the header is written. -/
def GoResponse.setHeader (w : GoResponse) (k v : String) : GoResponse :=
  if w.status.isSome then w else { w with headers := upsertHeader k v w.headers }

/-- `w.WriteHeader(code)`: writes the status once; later calls are
superfluous and ignored by `net/http`. -/
def GoResponse.writeHeader (w : GoResponse) (code : Int) : GoResponse :=
  if w.status.isSome then w else { w with status := some code }

/-- `w.Write(s)` / `io.Copy(w, f)`: an implicit `WriteHeader(200)` if none
happened yet, then body bytes. -/
def GoResponse.write (w : GoResponse) (s : String) : GoResponse :=
  let w1 := if w.status.isSome then w else { w with status := some 200 }
  { w1 with body := w1.body ++ s }

/-- `http.NotFound(w, r)` = `http.Error(w, "404 page not found", 404)`:
header mutations, a (possibly superfluous) `WriteHeader(404)`, and the
plain body line. -/
def httpNotFound (w : GoResponse) : GoResponse :=
  (((w.setHeader "Content-Type" "text/plain; charset=utf-8").setHeader
      "X-Content-Type-Options" "nosniff").writeHeader 404).write "404 page not found\n"

/-- Value of a header in the frozen response. -/
def headerValue (w : GoResponse) (k : String) : Option String :=
  (w.headers.find? (fun p => p.1 = k)).map (·.2)

/-- Lines 176–191 of the handler: explicit `X-Format` wins when it resolves
to an extension; an unresolvable explicit format falls back to the default
format, indexing `cext[0]` of the default format unguarded (`none` models
that panic); an absent `X-Format` goes through `selectFormat`. -/
def resolveFormatExt (defaultFormat : String) (r : GoRequest) : Option (String × String) :=
  if r.xFormat = "" then selectFormat r.accept defaultFormat
  else
    match extensionsByType r.xFormat with
    | e :: _ => some (r.xFormat, e)
    | [] =>
      match extensionsByType defaultFormat with
      | e :: _ => some (defaultFormat, e)
      | [] => none

/-- Lines 195–204: the status code from `X-Code`, `"404"` when the header
is absent, 404 when `strconv.Atoi` fails. -/
def effectiveCode (xCode : String) : Int :=
  let codeStr := if xCode = "" then "404" else xCode
  (parseAtoi codeStr).getD 404

/-- Lines 207–213: leading-dot normalization and the `.htm` → `.html`
compatibility rewrite. -/
def normalizeExt (ext : String) : String :=
  let e := if listIsPre ['.'] ext.data then ext else "." ++ ext
  if e = ".htm" then ".html" else e

/-- Line 214: `fmt.Sprintf("%v/%v%v", path, code, ext)`. -/
def exactFile (path : String) (code : Int) (ext : String) : String :=
  path ++ "/" ++ toString code ++ ext

/-- Line 219: `fmt.Sprintf("%v/%cxx%v", path, scode[0], ext)` with
`scode := strconv.Itoa(code)`. -/
def classFile (path : String) (code : Int) (ext : String) : String :=
  path ++ "/" ++ String.singleton (toString code).front ++ "xx" ++ ext

/-- Result of one handler invocation: the response, the ghost list of file
paths passed to `os.Open` in order, and whether control reached the metrics
lines at the bottom of the handler (lines 235–241). -/
structure HandlerResult where
  response : GoResponse
  attempts : List String
  metricsRecorded : Bool
deriving DecidableEq

/-- The request handler returned by `errorHandler(path, defaultFormat)`
(lines 160–242, `DEBUG` unset). `none` models the two panics: the startup
check on the default format's extension, and the unguarded `cext[0]`
fallback inside format resolution. -/
def serveRequest (path defaultFormat : String) (fs : String → Option String)
    (r : GoRequest) : Option HandlerResult :=
  match extensionsByType defaultFormat with
  | [] => none
  | _ :: _ =>
    match resolveFormatExt defaultFormat r with
    | none => none
    | some (format, ext0) =>
      let w := GoResponse.empty.setHeader "Content-Type" format
      let code := effectiveCode r.xCode
      let w := w.writeHeader code
      let ext := normalizeExt ext0
      let file1 := exactFile path code ext
      match fs file1 with
      | some content => some ⟨w.write content, [file1], true⟩
      | none =>
        let file2 := classFile path code ext
        match fs file2 with
        | some content => some ⟨w.write content, [file1, file2], false⟩
        | none => some ⟨httpNotFound w, [file1, file2], false⟩

/-! ### Request metrics

`requestCount` (counter vector) and `requestDuration` (histogram vector),
both labelled by protocol version, as far as their observable counting
behavior goes: a counter value and a number of histogram observations per
label. In the Accept-aware handler the increment and observe calls are the
last lines of the handler body, reached only when the early `return`s of
the fallback paths are not taken. -/

/-- The `proto` label: `"major.minor"` (lines 237–238). -/
def protoLabel (r : GoRequest) : String :=
  toString r.protoMajor ++ "." ++ toString r.protoMinor

/-- Per-label accumulators of the two metric vectors: counter value and
number of histogram observations. -/
structure MetricsState where
  counts : List (String × Nat)
  observations : List (String × Nat)
deriving DecidableEq

/-- Fresh metrics (process start). -/
def MetricsState.initial : MetricsState :=
  ⟨[], []⟩

/-- Increment the accumulator for a label. -/
def bumpLabel (k : String) : List (String × Nat) → List (String × Nat)
  | [] => [(k, 1)]
  | (k', n) :: rest => if k' = k then (k, n + 1) :: rest else (k', n) :: bumpLabel k rest

/-- Value of a label's accumulator (`0` when never touched). -/
def labelValue (k : String) (l : List (String × Nat)) : Nat :=
  ((l.find? (fun p => p.1 = k)).map (·.2)).getD 0

/-- One request through the Accept-aware handler, updating the metrics
exactly when the handler reached its metric lines. -/
def stepMetrics (path defaultFormat : String) (fs : String → Option String)
    (st : MetricsState) (r : GoRequest) : MetricsState :=
  match serveRequest path defaultFormat fs r with
  | none => st
  | some res =>
    if res.metricsRecorded then
      ⟨bumpLabel (protoLabel r) st.counts, bumpLabel (protoLabel r) st.observations⟩
    else st

/-- A sequence of requests through the Accept-aware handler. -/
def runRequests (path defaultFormat : String) (fs : String → Option String)
    (rs : List GoRequest) (st : MetricsState) : MetricsState :=
  rs.foldl (stepMetrics path defaultFormat fs) st

/-! ### Concrete scenarios and proof-layer definitions -/

/-- A root directory holding only `5xx.html` (the spec's 503 scenario). -/
def fsOnly5xx : String → Option String :=
  fun p => if p = "/www/5xx.html" then some "maintenance page" else none

/-- A root directory holding `5xx.html` and `404.html` but no `503.html`,
used to drive one wildcard-served and one exact-served request. -/
def fsWildcardAnd404 : String → Option String :=
  fun p =>
    if p = "/www/5xx.html" then some "wildcard page"
    else if p = "/www/404.html" then some "not found page"
    else none

/-- The two media types `selectFormat` treats as supported. -/
def supportedB (m : String) : Bool :=
  m = "application/json" || m = "text/html"

/-- An Accept header with thirteen comma-separated tokens, twelve of them
carrying no quality value: enough elements to push `sort.Slice` past its
insertion-sort regime. -/
def accept13 : String :=
  "b;q=0.5,a1,a2,a3,a4,a5,a6,a7,a8,a9,a10,a11,a12"

/-- Helper: strip one leading sign character. -/
def stripSign : List Char → List Char
  | '+' :: rest => rest
  | '-' :: rest => rest
  | l => l

/-- Quality-value strings on which the exact-decimal quality model provably
coincides with the program's `strconv.ParseFloat`-plus-`float64` semantics:
an optional sign and plain decimal digits with at most one decimal point —
no exponent, no underscores, no hexadecimal or `inf`/`nan` spellings — with
at most 15 significant digits and at most 25 digits in all. Within this
syntax `ParseFloat` succeeds exactly when the model does, every value lies
in the normal `float64` range, distinct values of at most 15 significant
decimal digits convert to distinct `float64` values (the round-trip
guarantee), and decimal-to-binary rounding is monotone — so two in-scope
qualities compare equal or less-than as `float64` exactly when their exact
decimal values do, and every comparison the sort performs is identical in
model and program. -/
def plainQSyntax (s : String) : Bool :=
  let l := stripSign s.data
  let ip := l.takeWhile (·.isDigit)
  let r1 := l.dropWhile (·.isDigit)
  let fp : List Char :=
    match r1 with
    | '.' :: r => r
    | _ => []
  let shapeOk : Bool :=
    match r1 with
    | [] => true
    | '.' :: r => !r.isEmpty && r.all (·.isDigit)
    | _ => false
  shapeOk && !(ip ++ fp).isEmpty &&
    ((ip ++ fp).dropWhile (· = '0')).length ≤ 15 && (ip ++ fp).length ≤ 25

/-- Every `";q="`-marked token of the header carries an in-scope plain
decimal quality value (tokens without the marker are unconstrained: both
program and model give them quality 1.0). -/
def qualitiesInScope (header : String) : Bool :=
  (goSplit header ',').all fun part =>
    match splitFirstSubstr (goTrimSpace part) ";q=" with
    | some pr => plainQSyntax pr.2
    | none => true

/-- Reference list-level insertion step: place `x` after every element it
does not beat, before the first element it beats. This is the list shape of
one pass of the Go insertion-sort inner loop over a sorted prefix. -/
def insertL (less : α → α → Bool) (x : α) : List α → List α
  | [] => [x]
  | y :: l => if less x y then x :: y :: l else y :: insertL less x l

/-- Reference list-level insertion sort, inserting in input order. -/
def isortL (less : α → α → Bool) (l : List α) : List α :=
  l.foldl (fun acc x => insertL less x acc) []

/-! ### Infrastructure lemmas -/

theorem string_append_assoc (a b c : String) : a ++ b ++ c = a ++ (b ++ c) := by
  ext1
  simp [String.data_append]

theorem selectFormatGo_isSome (dflt : String) (h : extensionsByType dflt ≠ []) :
    ∀ l : List String, (selectFormatGo dflt l).isSome := by
  intro l
  induction l with
  | nil =>
    rw [selectFormatGo]
    cases he : extensionsByType dflt with
    | nil => exact absurd he h
    | cons e rest => simp
  | cons m rest ih =>
    rw [selectFormatGo]
    by_cases hm : m = "application/json" ∨ m = "text/html"
    · simp only [if_pos hm]
      cases extensionsByType m with
      | nil => exact ih
      | cons e r => simp
    · simp only [if_neg hm]
      exact ih

theorem resolveFormatExt_isSome (dflt : String) (h : extensionsByType dflt ≠ [])
    (r : GoRequest) : (resolveFormatExt dflt r).isSome := by
  rw [resolveFormatExt]
  by_cases hx : r.xFormat = ""
  · simp only [if_pos hx]
    exact selectFormatGo_isSome dflt h _
  · simp only [if_neg hx]
    cases extensionsByType r.xFormat with
    | cons e rest => simp
    | nil =>
      cases he : extensionsByType dflt with
      | nil => exact absurd he h
      | cons e rest => simp

theorem serveRequest_isSome (path dflt : String) (fs : String → Option String)
    (r : GoRequest) (h : extensionsByType dflt ≠ []) :
    (serveRequest path dflt fs r).isSome := by
  rw [serveRequest]
  cases hd : extensionsByType dflt with
  | nil => exact absurd hd h
  | cons e rest =>
    cases hf : resolveFormatExt dflt r with
    | none =>
      have := resolveFormatExt_isSome dflt h r
      rw [hf] at this
      simp at this
    | some fe =>
      obtain ⟨format, ext0⟩ := fe
      cases h1 : fs (exactFile path (effectiveCode r.xCode) (normalizeExt ext0)) with
      | some c => simp [h1]
      | none =>
        cases h2 : fs (classFile path (effectiveCode r.xCode) (normalizeExt ext0)) with
        | some c => simp [h1, h2]
        | none => simp [h1, h2]

theorem serveRequest_char (path dflt : String) (fs : String → Option String)
    (r : GoRequest) (format ext0 : String)
    (hd : extensionsByType dflt ≠ []) (hf : resolveFormatExt dflt r = some (format, ext0)) :
    serveRequest path dflt fs r = some (
      match fs (exactFile path (effectiveCode r.xCode) (normalizeExt ext0)) with
      | some content =>
        ⟨⟨[("Content-Type", format)], some (effectiveCode r.xCode), content⟩,
         [exactFile path (effectiveCode r.xCode) (normalizeExt ext0)], true⟩
      | none =>
        match fs (classFile path (effectiveCode r.xCode) (normalizeExt ext0)) with
        | some content =>
          ⟨⟨[("Content-Type", format)], some (effectiveCode r.xCode), content⟩,
           [exactFile path (effectiveCode r.xCode) (normalizeExt ext0),
            classFile path (effectiveCode r.xCode) (normalizeExt ext0)], false⟩
        | none =>
          ⟨⟨[("Content-Type", format)], some (effectiveCode r.xCode), "404 page not found\n"⟩,
           [exactFile path (effectiveCode r.xCode) (normalizeExt ext0),
            classFile path (effectiveCode r.xCode) (normalizeExt ext0)], false⟩) := by
  rw [serveRequest]
  cases hd' : extensionsByType dflt with
  | nil => exact absurd hd' hd
  | cons e rest =>
    rw [hf]
    cases h1 : fs (exactFile path (effectiveCode r.xCode) (normalizeExt ext0)) with
    | some c =>
      simp only [h1]
      rfl
    | none =>
      cases h2 : fs (classFile path (effectiveCode r.xCode) (normalizeExt ext0)) with
      | some c =>
        simp only [h1, h2]
        rfl
      | none =>
        simp only [h1, h2]
        rfl

/-- C9: when the configured default format resolves to at least one MIME
extension — the condition `errorHandler` enforces at startup by panicking —
`selectFormat` is total on every Accept header: the unguarded `cext[0]` on
its default-fallback path is in bounds and a media type and extension are
always returned. -/
theorem C9_selectFormat_total (accept dflt : String)
    (h : extensionsByType dflt ≠ []) : (selectFormat accept dflt).isSome :=
  selectFormatGo_isSome dflt h (parseAcceptHeader accept)

/-- Witness for C9 at a concrete unsupported Accept header and the default
default format. -/
theorem C9_selectFormat_total_witness :
    (selectFormat "application/toml, text/rtf" "text/html").isSome :=
  C9_selectFormat_total "application/toml, text/rtf" "text/html" (by decide)

/-- C7: a requested media type with no resolvable extension never aborts
format resolution: provided the default format resolves (the startup
check), an explicit unresolvable `X-Format` resolves to the default format
paired with the default format's first extension, and the handler always
produces a response. -/
theorem C7_unresolvable_falls_back (dflt e0 : String) (rest : List String)
    (hd : extensionsByType dflt = e0 :: rest) :
    (∀ r : GoRequest, r.xFormat ≠ "" → extensionsByType r.xFormat = [] →
        resolveFormatExt dflt r = some (dflt, e0)) ∧
      (∀ (path : String) (fs : String → Option String) (r : GoRequest),
        (serveRequest path dflt fs r).isSome) := by
  constructor
  · intro r hne hempty
    rw [resolveFormatExt, if_neg hne, hempty, hd]
  · intro path fs r
    exact serveRequest_isSome path dflt fs r (by rw [hd]; simp)

/-- Witness for C7: `X-Format: application/toml` is unresolvable and falls
back to `text/html` with extension `.htm`; the handler answers. -/
theorem C7_unresolvable_falls_back_witness :
    resolveFormatExt "text/html" ⟨"application/toml", "", "", 1, 1⟩ =
        some ("text/html", ".htm") ∧
      (serveRequest "/www" "text/html" (fun _ => none)
          ⟨"application/toml", "", "", 1, 1⟩).isSome := by
  have h := C7_unresolvable_falls_back "text/html" ".htm" [".html"] (by decide)
  exact ⟨h.1 ⟨"application/toml", "", "", 1, 1⟩ (by decide) (by decide),
    h.2 "/www" (fun _ => none) ⟨"application/toml", "", "", 1, 1⟩⟩

/-- C8: an explicit `X-Format` value that resolves to a known extension is
used with exactly that extension after normalization — a leading dot is
ensured and `.htm` is rewritten to `.html` — and the first candidate file
path is built from the normalized extension. -/
theorem C8_explicit_extension_normalized (dflt : String) (r : GoRequest)
    (e0 : String) (rest : List String) (path : String) (fs : String → Option String)
    (hne : r.xFormat ≠ "") (hx : extensionsByType r.xFormat = e0 :: rest)
    (hd : extensionsByType dflt ≠ []) :
    resolveFormatExt dflt r = some (r.xFormat, e0) ∧
      (∀ s : String, listIsPre ['.'] (normalizeExt s).data = true) ∧
      normalizeExt ".htm" = ".html" ∧ normalizeExt "htm" = ".html" ∧
      ∃ res, serveRequest path dflt fs r = some res ∧
        res.attempts.head? =
          some (exactFile path (effectiveCode r.xCode) (normalizeExt e0)) := by
  have hres : resolveFormatExt dflt r = some (r.xFormat, e0) := by
    rw [resolveFormatExt, if_neg hne, hx]
  refine ⟨hres, ?_, by decide, by decide, ?_⟩
  · intro s
    rw [normalizeExt]
    split
    · split
      · decide
      · assumption
    · split
      · decide
      · rw [String.data_append]
        simp [listIsPre]
  · rw [serveRequest_char path dflt fs r r.xFormat e0 hd hres]
    cases h1 : fs (exactFile path (effectiveCode r.xCode) (normalizeExt e0)) with
    | some c => simp [h1]
    | none =>
      cases h2 : fs (classFile path (effectiveCode r.xCode) (normalizeExt e0)) with
      | some c => simp [h1, h2]
      | none => simp [h1, h2]

/-- Witness for C8: `X-Format: text/html` resolves to first extension
`.htm`, which normalization rewrites to `.html`, giving first candidate
`/www/404.html`. -/
theorem C8_explicit_extension_normalized_witness :
    resolveFormatExt "text/html" ⟨"text/html", "", "", 1, 1⟩ =
        some ("text/html", ".htm") ∧
      normalizeExt ".htm" = ".html" ∧
      ∃ res, serveRequest "/www" "text/html" (fun _ => none)
          ⟨"text/html", "", "", 1, 1⟩ = some res ∧
        res.attempts.head? = some "/www/404.html" := by
  have h := C8_explicit_extension_normalized "text/html" ⟨"text/html", "", "", 1, 1⟩
    ".htm" [".html"] "/www" (fun _ => none) (by decide) (by decide) (by decide)
  obtain ⟨h1, _, h3, _, res, hserve, hhead⟩ := h
  exact ⟨h1, h3, res, hserve, by rw [hhead]; rfl⟩

theorem listIsPre_iff (p : List Char) : ∀ l, listIsPre p l = true ↔ ∃ v, l = p ++ v := by
  induction p with
  | nil =>
    intro l
    simp [listIsPre]
  | cons c cs ih =>
    intro l
    cases l with
    | nil =>
      simp [listIsPre]
    | cons d ds =>
      rw [listIsPre]
      simp only [Bool.and_eq_true, decide_eq_true_eq]
      constructor
      · rintro ⟨hcd, hrest⟩
        obtain ⟨v, hv⟩ := (ih ds).1 hrest
        exact ⟨v, by rw [hv, hcd]; rfl⟩
      · rintro ⟨v, hv⟩
        rw [List.cons_append] at hv
        injection hv with h1 h2
        exact ⟨h1.symm, (ih ds).2 ⟨v, h2⟩⟩

theorem findSub_sound (pat : List Char) :
    ∀ l pre post, findSub pat l = some (pre, post) → l = pre ++ pat ++ post := by
  intro l
  induction l with
  | nil =>
    intro pre post h
    rw [findSub] at h
    by_cases hp : pat.isEmpty
    · rw [if_pos hp] at h
      simp only [Option.some.injEq, Prod.mk.injEq] at h
      obtain ⟨h1, h2⟩ := h
      subst h1
      subst h2
      rw [List.isEmpty_iff.1 hp]
      rfl
    · rw [if_neg hp] at h
      exact absurd h (by simp)
  | cons c rest ih =>
    intro pre post h
    rw [findSub] at h
    by_cases hp : listIsPre pat (c :: rest) = true
    · rw [if_pos hp] at h
      simp only [Option.some.injEq, Prod.mk.injEq] at h
      obtain ⟨h1, h2⟩ := h
      subst h1
      subst h2
      obtain ⟨v, hv⟩ := (listIsPre_iff pat (c :: rest)).1 hp
      rw [List.nil_append, hv, List.drop_left]
    · rw [if_neg hp] at h
      cases hfs : findSub pat rest with
      | none =>
        rw [hfs] at h
        exact absurd h (by simp)
      | some pr =>
        obtain ⟨pa, pb⟩ := pr
        rw [hfs] at h
        simp only [Option.some.injEq, Prod.mk.injEq] at h
        obtain ⟨h1, h2⟩ := h
        subst h1
        subst h2
        have hr := ih pa pb hfs
        rw [hr]
        simp

theorem findSub_isSome (pat : List Char) :
    ∀ l, (∃ pre post, l = pre ++ pat ++ post) → (findSub pat l).isSome := by
  intro l
  induction l with
  | nil =>
    rintro ⟨pre, post, hd⟩
    have hpre : pre = [] := by
      cases pre with
      | nil => rfl
      | cons a b => simp at hd
    subst hpre
    have hpat : pat = [] := by
      cases pat with
      | nil => rfl
      | cons a b => simp at hd
    subst hpat
    rw [findSub]
    simp
  | cons c rest ih =>
    rintro ⟨pre, post, hd⟩
    rw [findSub]
    by_cases hp : listIsPre pat (c :: rest) = true
    · rw [if_pos hp]
      simp
    · rw [if_neg hp]
      cases pre with
      | nil =>
        exact absurd ((listIsPre_iff pat (c :: rest)).2 ⟨post, by simpa using hd⟩) hp
      | cons a b =>
        rw [List.cons_append, List.cons_append] at hd
        injection hd with h1 h2
        have := ih ⟨b, post, h2⟩
        cases hfs : findSub pat rest with
        | none => rw [hfs] at this; simp at this
        | some pr => simp

theorem goTrimSpace_infix (s : String) :
    ∃ u v, s.data = u ++ (goTrimSpace s).data ++ v := by
  refine ⟨s.data.takeWhile isGoSpace,
    ((s.data.dropWhile isGoSpace).reverse.takeWhile isGoSpace).reverse, ?_⟩
  have h2 : (s.data.dropWhile isGoSpace).reverse.takeWhile isGoSpace ++
      (s.data.dropWhile isGoSpace).reverse.dropWhile isGoSpace =
      (s.data.dropWhile isGoSpace).reverse :=
    List.takeWhile_append_dropWhile isGoSpace (s.data.dropWhile isGoSpace).reverse
  have h3 : s.data.dropWhile isGoSpace =
      ((s.data.dropWhile isGoSpace).reverse.dropWhile isGoSpace).reverse ++
      ((s.data.dropWhile isGoSpace).reverse.takeWhile isGoSpace).reverse := by
    calc s.data.dropWhile isGoSpace
        = ((s.data.dropWhile isGoSpace).reverse).reverse := (List.reverse_reverse _).symm
      _ = ((s.data.dropWhile isGoSpace).reverse.takeWhile isGoSpace ++
           (s.data.dropWhile isGoSpace).reverse.dropWhile isGoSpace).reverse := by rw [h2]
      _ = ((s.data.dropWhile isGoSpace).reverse.dropWhile isGoSpace).reverse ++
          ((s.data.dropWhile isGoSpace).reverse.takeWhile isGoSpace).reverse :=
        List.reverse_append _ _
  have h1 : s.data.takeWhile isGoSpace ++ s.data.dropWhile isGoSpace = s.data :=
    List.takeWhile_append_dropWhile isGoSpace s.data
  conv_lhs => rw [← h1]
  rw [List.append_assoc]
  congr 1

theorem hasSubstr_trim_false (part pat : String)
    (h : hasSubstr part pat = false) : hasSubstr (goTrimSpace part) pat = false := by
  by_contra hc
  have hsome : (findSub pat.data (goTrimSpace part).data).isSome := by
    rw [hasSubstr, splitFirstSubstr] at hc
    cases hfs : findSub pat.data (goTrimSpace part).data with
    | none => rw [hfs] at hc; simp at hc
    | some pr => simp
  obtain ⟨pr, hpr⟩ := Option.isSome_iff_exists.1 hsome
  obtain ⟨pa, pb⟩ := pr
  have hdec := findSub_sound pat.data (goTrimSpace part).data pa pb hpr
  obtain ⟨u, v, huv⟩ := goTrimSpace_infix part
  have : part.data = (u ++ pa) ++ pat.data ++ (pb ++ v) := by
    rw [huv, hdec]
    simp
  have hp2 := findSub_isSome pat.data part.data ⟨u ++ pa, pb ++ v, this⟩
  rw [hasSubstr, splitFirstSubstr] at h
  cases hfs : findSub pat.data part.data with
  | none => rw [hfs] at hp2; simp at hp2
  | some pr2 => rw [hfs] at h; simp at h

theorem selectFormatGo_found (dflt : String) :
    ∀ (l : List String) (m : String), l.find? supportedB = some m →
      selectFormatGo dflt l =
        some (m, if m = "application/json" then ".json" else ".htm") := by
  intro l
  induction l with
  | nil =>
    intro m h
    simp at h
  | cons x rest ih =>
    intro m h
    by_cases hsup : supportedB x = true
    · have hm : m = x := by
        rw [List.find?_cons_of_pos _ hsup] at h
        exact (Option.some.inj h).symm
      subst hm
      have hx : m = "application/json" ∨ m = "text/html" := by
        simpa [supportedB] using hsup
      rw [selectFormatGo, if_pos hx]
      rcases hx with h1 | h1 <;> subst h1
      · rw [show extensionsByType "application/json" = [".json"] from rfl]
        rw [if_pos rfl]
      · rw [show extensionsByType "text/html" = [".htm", ".html"] from rfl]
        rw [if_neg (by decide)]
    · have hrest : rest.find? supportedB = some m := by
        rw [List.find?_cons_of_neg _ (by simpa using hsup)] at h
        exact h
      have hx : ¬ (x = "application/json" ∨ x = "text/html") := by
        intro hor
        apply hsup
        rcases hor with h1 | h1 <;> simp [supportedB, h1]
      rw [selectFormatGo, if_neg hx]
      exact ih m hrest

theorem selectFormatGo_fallback (dflt e0 : String) (rest : List String)
    (hd : extensionsByType dflt = e0 :: rest) :
    ∀ l : List String, l.find? supportedB = none →
      selectFormatGo dflt l = some (dflt, e0) := by
  intro l
  induction l with
  | nil =>
    intro _
    rw [selectFormatGo, hd]
  | cons x xs ih =>
    intro h
    have hsup : ¬ supportedB x = true := by
      intro hs
      rw [List.find?_cons_of_pos _ hs] at h
      simp at h
    have hx : ¬ (x = "application/json" ∨ x = "text/html") := by
      intro hor
      apply hsup
      rcases hor with h1 | h1 <;> simp [supportedB, h1]
    rw [selectFormatGo, if_neg hx]
    exact ih (by rw [List.find?_cons_of_neg _ hsup] at h; exact h)

theorem exactFile_404 (path e : String) :
    exactFile path 404 e = path ++ "/404" ++ e := by
  rw [exactFile]
  rw [show (toString (404 : Int)) = "404" from rfl]
  rw [string_append_assoc path "/" "404"]
  rfl

theorem classFile_404 (path e : String) :
    classFile path 404 e = path ++ "/4xx" ++ e := by
  rw [classFile]
  rw [show String.singleton (toString (404 : Int)).front = "4" from rfl]
  rw [string_append_assoc path "/" "4"]
  rw [string_append_assoc path ("/" ++ "4") "xx"]
  rfl

/-- C5: with no explicit `X-Format` header, format selection parses the
Accept header and picks the first candidate, in the parser's
descending-quality order, that is one of the two supported types; the
chosen media type becomes the response `Content-Type`; and the header
`"text/html;q=0.8, application/json;q=0.9"` resolves to
`application/json`. -/
theorem C5_accept_header_negotiation :
    (∀ accept dflt m : String,
       (parseAcceptHeader accept).find? supportedB = some m →
       selectFormat accept dflt =
         some (m, if m = "application/json" then ".json" else ".htm")) ∧
      (∀ (path dflt : String) (fs : String → Option String) (r : GoRequest)
         (fmt e0 : String), r.xFormat = "" → extensionsByType dflt ≠ [] →
         selectFormat r.accept dflt = some (fmt, e0) →
         ∃ res, serveRequest path dflt fs r = some res ∧
           headerValue res.response "Content-Type" = some fmt) ∧
      selectFormat "text/html;q=0.8, application/json;q=0.9" "text/html" =
        some ("application/json", ".json") := by
  refine ⟨?_, ?_, by decide⟩
  · intro accept dflt m h
    exact selectFormatGo_found dflt (parseAcceptHeader accept) m h
  · intro path dflt fs r fmt e0 hx hd hsel
    have hres : resolveFormatExt dflt r = some (fmt, e0) := by
      rw [resolveFormatExt, if_pos hx, hsel]
    rw [serveRequest_char path dflt fs r fmt e0 hd hres]
    cases h1 : fs (exactFile path (effectiveCode r.xCode) (normalizeExt e0)) with
    | some c =>
      simp only [h1]
      exact ⟨_, rfl, rfl⟩
    | none =>
      cases h2 : fs (classFile path (effectiveCode r.xCode) (normalizeExt e0)) with
      | some c =>
        simp only [h1, h2]
        exact ⟨_, rfl, rfl⟩
      | none =>
        simp only [h1, h2]
        exact ⟨_, rfl, rfl⟩

/-- Witness for C5 at the spec's example header: `application/json` is
found first and selected, and the response carries it as `Content-Type`. -/
theorem C5_accept_header_negotiation_witness :
    selectFormat "text/html;q=0.8, application/json;q=0.9" "text/html" =
        some ("application/json", ".json") ∧
      ∃ res, serveRequest "/www" "text/html" (fun _ => none)
          ⟨"", "404", "text/html;q=0.8, application/json;q=0.9", 1, 1⟩ = some res ∧
        headerValue res.response "Content-Type" = some "application/json" := by
  refine ⟨C5_accept_header_negotiation.2.2, ?_⟩
  exact C5_accept_header_negotiation.2.1 "/www" "text/html" (fun _ => none)
    ⟨"", "404", "text/html;q=0.8, application/json;q=0.9", 1, 1⟩
    "application/json" ".json" rfl (by decide) (by decide)

/-- C6: a missing or non-numeric `X-Code` yields effective status 404, the
response status line carries 404, and the candidate files are
`rootDir/404<ext>` and then, when the first open fails,
`rootDir/4xx<ext>`. -/
theorem C6_invalid_code_defaults_404 (path dflt : String)
    (fs : String → Option String) (r : GoRequest) (fmt e0 : String)
    (hd : extensionsByType dflt ≠ []) (hf : resolveFormatExt dflt r = some (fmt, e0))
    (hcode : r.xCode = "" ∨ parseAtoi r.xCode = none) :
    effectiveCode r.xCode = 404 ∧
      ∃ res, serveRequest path dflt fs r = some res ∧
        res.response.status = some 404 ∧
        res.attempts.head? = some (path ++ "/404" ++ normalizeExt e0) ∧
        (fs (path ++ "/404" ++ normalizeExt e0) = none →
          res.attempts =
            [path ++ "/404" ++ normalizeExt e0, path ++ "/4xx" ++ normalizeExt e0]) := by
  have h404 : effectiveCode r.xCode = 404 := by
    rcases hcode with hxc | hxc
    · rw [effectiveCode, if_pos hxc]
      decide
    · by_cases hempty : r.xCode = ""
      · rw [effectiveCode, if_pos hempty]
        decide
      · rw [effectiveCode, if_neg hempty, hxc]
        rfl
  refine ⟨h404, ?_⟩
  rw [serveRequest_char path dflt fs r fmt e0 hd hf, h404, exactFile_404, classFile_404]
  cases h1 : fs (path ++ "/404" ++ normalizeExt e0) with
  | some c =>
    simp only [h1]
    exact ⟨_, rfl, rfl, rfl, fun hcontra => absurd hcontra (by simp)⟩
  | none =>
    cases h2 : fs (path ++ "/4xx" ++ normalizeExt e0) with
    | some c =>
      simp only [h1, h2]
      exact ⟨_, rfl, rfl, rfl, fun _ => rfl⟩
    | none =>
      simp only [h1, h2]
      exact ⟨_, rfl, rfl, rfl, fun _ => rfl⟩

/-- Witness for C6: `X-Code: abc` does not parse, the handler answers with
status 404, and with no files present it attempted `/www/404.html` then
`/www/4xx.html`. -/
theorem C6_invalid_code_defaults_404_witness :
    effectiveCode "abc" = 404 ∧
      ∃ res, serveRequest "/www" "text/html" (fun _ => none)
          ⟨"", "abc", "", 1, 1⟩ = some res ∧
        res.response.status = some 404 ∧
        res.attempts.head? = some ("/www" ++ "/404" ++ normalizeExt ".htm") ∧
        ((fun _ => none : String → Option String)
            ("/www" ++ "/404" ++ normalizeExt ".htm") = none →
          res.attempts = ["/www" ++ "/404" ++ normalizeExt ".htm",
            "/www" ++ "/4xx" ++ normalizeExt ".htm"]) :=
  C6_invalid_code_defaults_404 "/www" "text/html" (fun _ => none)
    ⟨"", "abc", "", 1, 1⟩ "text/html" ".htm" (by decide) (by decide)
    (Or.inr (by decide))

/-- C1: the handler opens `rootDir/<code><ext>` first, and attempts
`rootDir/<firstDigit>xx<ext>` exactly when that first open fails; with root
`/www` containing only `5xx.html` and `X-Code: 503`, the response body is
the contents of `5xx.html` and the status is 503. -/
theorem C1_exact_then_class_fallback :
    (∀ (path dflt : String) (fs : String → Option String) (r : GoRequest)
       (fmt e0 : String), extensionsByType dflt ≠ [] →
       resolveFormatExt dflt r = some (fmt, e0) →
       ∃ res, serveRequest path dflt fs r = some res ∧
         res.attempts.head? =
           some (exactFile path (effectiveCode r.xCode) (normalizeExt e0)) ∧
         (res.attempts =
             [exactFile path (effectiveCode r.xCode) (normalizeExt e0),
              classFile path (effectiveCode r.xCode) (normalizeExt e0)] ↔
           fs (exactFile path (effectiveCode r.xCode) (normalizeExt e0)) = none) ∧
         (res.attempts =
             [exactFile path (effectiveCode r.xCode) (normalizeExt e0)] ↔
           fs (exactFile path (effectiveCode r.xCode) (normalizeExt e0)) ≠ none)) ∧
      serveRequest "/www" "text/html" fsOnly5xx ⟨"", "503", "", 1, 1⟩ =
        some ⟨⟨[("Content-Type", "text/html")], some 503, "maintenance page"⟩,
          ["/www/503.html", "/www/5xx.html"], false⟩ := by
  refine ⟨?_, by decide⟩
  intro path dflt fs r fmt e0 hd hf
  rw [serveRequest_char path dflt fs r fmt e0 hd hf]
  cases h1 : fs (exactFile path (effectiveCode r.xCode) (normalizeExt e0)) with
  | some c =>
    simp only [h1]
    refine ⟨_, rfl, rfl, ?_, ?_⟩
    · constructor
      · intro hcontra
        exact absurd hcontra (by simp)
      · intro hcontra
        exact absurd hcontra (by simp)
    · exact ⟨fun _ => by simp, fun _ => rfl⟩
  | none =>
    cases h2 : fs (classFile path (effectiveCode r.xCode) (normalizeExt e0)) with
    | some c =>
      simp only [h1, h2]
      refine ⟨_, rfl, rfl, by simp, ?_⟩
      constructor
      · intro hcontra
        exact absurd hcontra (by simp)
      · intro hcontra
        exact absurd rfl hcontra
    | none =>
      simp only [h1, h2]
      refine ⟨_, rfl, rfl, by simp, ?_⟩
      constructor
      · intro hcontra
        exact absurd hcontra (by simp)
      · intro hcontra
        exact absurd rfl hcontra

/-- Witness for C1's universal part at the 503 scenario: the exact file
`/www/503.html` is attempted first and, it being absent, the class file is
attempted too. -/
theorem C1_exact_then_class_fallback_witness :
    ∃ res, serveRequest "/www" "text/html" fsOnly5xx ⟨"", "503", "", 1, 1⟩ = some res ∧
      res.attempts.head? =
        some (exactFile "/www" (effectiveCode "503") (normalizeExt ".htm")) ∧
      (res.attempts =
          [exactFile "/www" (effectiveCode "503") (normalizeExt ".htm"),
           classFile "/www" (effectiveCode "503") (normalizeExt ".htm")] ↔
        fsOnly5xx (exactFile "/www" (effectiveCode "503") (normalizeExt ".htm")) = none) ∧
      (res.attempts = [exactFile "/www" (effectiveCode "503") (normalizeExt ".htm")] ↔
        fsOnly5xx (exactFile "/www" (effectiveCode "503") (normalizeExt ".htm")) ≠ none) :=
  C1_exact_then_class_fallback.1 "/www" "text/html" fsOnly5xx
    ⟨"", "503", "", 1, 1⟩ "text/html" ".htm" (by decide) (by decide)

/-- C3 counterexample: with `X-Code: 503` and no files at all under the
root, the handler emits the plain not-found body, but the wire status is
503, not 404 — `WriteHeader(code)` ran before the file lookup and the later
`WriteHeader(404)` inside `http.NotFound` is superfluous and ignored. -/
theorem C3_counterexample_status_is_code :
    serveRequest "/www" "text/html" (fun _ => none) ⟨"", "503", "", 1, 1⟩ =
        some ⟨⟨[("Content-Type", "text/html")], some 503, "404 page not found\n"⟩,
          ["/www/503.html", "/www/5xx.html"], false⟩ ∧
      (some (503 : Int) : Option Int) ≠ some 404 := by
  exact ⟨by decide, by decide⟩

/-- C3 amended: for status codes in `[100, 599]` with neither the
exact-code file nor the class-wildcard file present, the response body is
the generic plain not-found text, distinct from any custom page, but the
response status is the already-written resolved code — it equals 404
exactly when the resolved code is 404. -/
theorem C3_no_file_not_found_body (path dflt : String)
    (fs : String → Option String) (r : GoRequest) (fmt e0 : String)
    (hd : extensionsByType dflt ≠ []) (hf : resolveFormatExt dflt r = some (fmt, e0))
    (hlo : 100 ≤ effectiveCode r.xCode) (hhi : effectiveCode r.xCode ≤ 599)
    (h1 : fs (exactFile path (effectiveCode r.xCode) (normalizeExt e0)) = none)
    (h2 : fs (classFile path (effectiveCode r.xCode) (normalizeExt e0)) = none) :
    ∃ res, serveRequest path dflt fs r = some res ∧
      res.response.body = "404 page not found\n" ∧
      res.response.status = some (effectiveCode r.xCode) ∧
      (res.response.status = some 404 ↔ effectiveCode r.xCode = 404) := by
  rw [serveRequest_char path dflt fs r fmt e0 hd hf]
  simp only [h1, h2]
  refine ⟨_, rfl, rfl, rfl, ?_⟩
  constructor
  · intro h
    exact Option.some.inj h
  · intro h
    rw [h]

/-- Witness for C3's amended statement at code 418 with an empty root. -/
theorem C3_no_file_not_found_body_witness :
    ∃ res, serveRequest "/www" "text/html" (fun _ => none)
        ⟨"", "418", "", 1, 1⟩ = some res ∧
      res.response.body = "404 page not found\n" ∧
      res.response.status = some (effectiveCode "418") ∧
      (res.response.status = some 404 ↔ effectiveCode "418" = 404) :=
  C3_no_file_not_found_body "/www" "text/html" (fun _ => none)
    ⟨"", "418", "", 1, 1⟩ "text/html" ".htm" (by decide) (by decide)
    (by decide) (by decide) rfl rfl

/-- C2: in the Accept-aware handler the metric lines are reached only when
the exact-code file was opened successfully; a request served from the
class-wildcard file (here `X-Code: 503` against a root with only `5xx.html`
and `404.html`) returns before them, so after one wildcard-served and one
exact-served HTTP/1.1 request the counter and histogram for label `"1.1"`
hold 1, not the 2 the claim requires. -/
theorem C2_metrics_skipped_on_fallback :
    (serveRequest "/www" "text/html" fsWildcardAnd404 ⟨"", "503", "", 1, 1⟩).map
        (fun res => (res.response.body, res.metricsRecorded)) =
      some ("wildcard page", false) ∧
      (serveRequest "/www" "text/html" fsWildcardAnd404 ⟨"", "404", "", 1, 1⟩).map
          (fun res => (res.response.body, res.metricsRecorded)) =
        some ("not found page", true) ∧
      runRequests "/www" "text/html" fsWildcardAnd404
          [⟨"", "503", "", 1, 1⟩, ⟨"", "404", "", 1, 1⟩] MetricsState.initial =
        ⟨[("1.1", 1)], [("1.1", 1)]⟩ ∧
      (1 : Nat) ≠ 2 := by
  exact ⟨by decide, by decide, by decide, by decide⟩

/-- C10: quality values are recognized only through the exact `";q="`
marker: a token without that exact substring keeps quality 1.0 and its
media type is the whole trimmed token; when such a token still carries a
parameter (so it contains `';'`), it is neither supported media type, and
the concrete header `"application/json; q=0.9"` (space before `q`) is
served only through the default-format fallback. -/
theorem C10_q_marker_exact :
    (∀ part : String, hasSubstr part ";q=" = false →
       parsePart part = (goTrimSpace part, ⟨1, 0⟩)) ∧
      (∀ part : String, (goTrimSpace part).data.contains ';' = true →
        goTrimSpace part ≠ "application/json" ∧ goTrimSpace part ≠ "text/html") ∧
      parseAcceptHeader "application/json; q=0.9" = ["application/json; q=0.9"] ∧
      selectFormat "application/json; q=0.9" "text/html" =
        some ("text/html", ".htm") := by
  refine ⟨?_, ?_, by decide, by decide⟩
  · intro part h
    have htrim := hasSubstr_trim_false part ";q=" h
    rw [parsePart]
    rw [hasSubstr] at htrim
    cases hfs : splitFirstSubstr (goTrimSpace part) ";q=" with
    | none => rfl
    | some pr =>
      rw [hfs] at htrim
      simp at htrim
  · intro part h
    constructor
    · intro heq
      rw [heq] at h
      exact absurd h (by decide)
    · intro heq
      rw [heq] at h
      exact absurd h (by decide)

/-- Witness for C10 at the spec-level example token with a space before
`q`. -/
theorem C10_q_marker_exact_witness :
    parsePart "application/json; q=0.9" =
        (goTrimSpace "application/json; q=0.9", ⟨1, 0⟩) ∧
      (goTrimSpace "application/json; q=0.9" ≠ "application/json" ∧
        goTrimSpace "application/json; q=0.9" ≠ "text/html") :=
  ⟨C10_q_marker_exact.1 "application/json; q=0.9" (by decide),
    C10_q_marker_exact.2.1 "application/json; q=0.9" (by decide)⟩

/-! ### Order facts for quality values and the sort comparator -/

theorem parsePart_no_marker (part : String) (h : hasSubstr part ";q=" = false) :
    parsePart part = (goTrimSpace part, ⟨1, 0⟩) := by
  have htrim := hasSubstr_trim_false part ";q=" h
  rw [parsePart]
  rw [hasSubstr] at htrim
  cases hfs : splitFirstSubstr (goTrimSpace part) ";q=" with
  | none => rfl
  | some pr =>
    rw [hfs] at htrim
    simp at htrim

theorem tenPow_cast (k : Nat) : ((tenPow k : Int) : ℚ) = (10 : ℚ) ^ k := by
  rw [tenPow, Int.ofNat_eq_coe]
  push_cast
  ring

theorem blt_iff_val (a b : Qval) : Qval.blt a b = true ↔ a.val < b.val := by
  rw [Qval.blt, decide_eq_true_eq, Qval.val, Qval.val,
    div_lt_div_iff (pow_pos (by norm_num) _) (pow_pos (by norm_num) _),
    ← tenPow_cast b.dexp, ← tenPow_cast a.dexp, ← Int.cast_mul, ← Int.cast_mul,
    Int.cast_lt]

theorem veq_iff_val (a b : Qval) : Qval.veq a b = true ↔ a.val = b.val := by
  rw [Qval.veq, decide_eq_true_eq, Qval.val, Qval.val,
    div_eq_div_iff (by positivity) (by positivity),
    ← tenPow_cast b.dexp, ← tenPow_cast a.dexp, ← Int.cast_mul, ← Int.cast_mul,
    Int.cast_inj]

theorem qGreater_iff (x y : String × Qval) :
    qGreater x y = true ↔ y.2.val < x.2.val := by
  rw [qGreater]
  exact blt_iff_val y.2 x.2

theorem qGreater_false_iff (x y : String × Qval) :
    qGreater x y = false ↔ ¬ y.2.val < x.2.val := by
  rw [← qGreater_iff]
  cases qGreater x y <;> simp

theorem qGreater_t1 (x y z : String × Qval) (h1 : qGreater x y = true)
    (h2 : qGreater z y = false) : qGreater x z = true := by
  rw [qGreater_iff] at h1 ⊢
  rw [qGreater_false_iff] at h2
  linarith

theorem qGreater_t2 (x y z : String × Qval) (h1 : qGreater x y = true)
    (h2 : qGreater z y = false) : qGreater z x = false := by
  rw [qGreater_iff] at h1
  rw [qGreater_false_iff] at h2 ⊢
  intro h
  linarith

theorem qGreater_irrefl (x : String × Qval) : qGreater x x = false := by
  rw [qGreater_false_iff]
  exact lt_irrefl _

theorem qGreater_of_veq (q : Qval) (a b : String × Qval)
    (ha : Qval.veq a.2 q = true) (hb : Qval.veq b.2 q = true) :
    qGreater a b = false := by
  rw [veq_iff_val] at ha hb
  rw [qGreater_false_iff, ha, hb]
  exact lt_irrefl _

/-! ### Correctness of the list-level stable insertion sort

`insertL`/`isortL` are the list shape of the Go insertion sort; the lemmas
here show the fold produces a descending-sorted permutation whose
same-quality classes keep their input order, under the transitivity-style
assumptions the comparator satisfies. -/

theorem insertL_length (less : α → α → Bool) (x : α) :
    ∀ l : List α, (insertL less x l).length = l.length + 1 := by
  intro l
  induction l with
  | nil => rfl
  | cons y l ih =>
    rw [insertL]
    by_cases h : less x y = true
    · rw [if_pos h]
      rfl
    · rw [if_neg h, List.length_cons, List.length_cons, ih]

theorem mem_insertL (less : α → α → Bool) (x : α) :
    ∀ (l : List α) (b : α), b ∈ insertL less x l → b = x ∨ b ∈ l := by
  intro l
  induction l with
  | nil =>
    intro b hb
    rw [insertL] at hb
    simp at hb
    exact Or.inl hb
  | cons y l ih =>
    intro b hb
    rw [insertL] at hb
    by_cases h : less x y = true
    · rw [if_pos h] at hb
      rcases List.mem_cons.1 hb with h1 | h1
      · exact Or.inl h1
      · exact Or.inr h1
    · rw [if_neg h] at hb
      rcases List.mem_cons.1 hb with h1 | h1
      · exact Or.inr (h1 ▸ List.mem_cons_self y l)
      · rcases ih b h1 with h2 | h2
        · exact Or.inl h2
        · exact Or.inr (List.mem_cons_of_mem y h2)

theorem insertL_sorted (less : α → α → Bool)
    (hT2 : ∀ x y z, less x y = true → less z y = false → less z x = false)
    (hIrr : ∀ x, less x x = false) (x : α) :
    ∀ l : List α, l.Pairwise (fun u v => less v u = false) →
      (insertL less x l).Pairwise (fun u v => less v u = false) := by
  intro l
  induction l with
  | nil =>
    intro _
    simp [insertL]
  | cons y l ih =>
    intro hs
    rw [List.pairwise_cons] at hs
    obtain ⟨hy, hl⟩ := hs
    rw [insertL]
    by_cases h : less x y = true
    · rw [if_pos h, List.pairwise_cons]
      constructor
      · intro b hb
        rcases List.mem_cons.1 hb with h1 | h1
        · rw [h1]
          exact hT2 x y y h (hIrr y)
        · exact hT2 x y b h (hy b h1)
      · rw [List.pairwise_cons]
        exact ⟨hy, hl⟩
    · rw [if_neg h, List.pairwise_cons]
      constructor
      · intro b hb
        rcases mem_insertL less x l b hb with h1 | h1
        · rw [h1]
          exact Bool.eq_false_iff.2 h
        · exact hy b h1
      · exact ih hl

theorem insertL_all_false (less : α → α → Bool) (x : α) :
    ∀ l : List α, (∀ y ∈ l, less x y = false) → insertL less x l = l ++ [x] := by
  intro l
  induction l with
  | nil => intro _; rfl
  | cons y l ih =>
    intro hall
    rw [insertL, if_neg (by rw [hall y (List.mem_cons_self y l)]; simp),
      ih (fun z hz => hall z (List.mem_cons_of_mem y hz))]
    rfl

theorem insertL_append_beats (less : α → α → Bool) (x u : α)
    (hu : less x u = true) :
    ∀ pre : List α, insertL less x (pre ++ [u]) = insertL less x pre ++ [u] := by
  intro pre
  induction pre with
  | nil =>
    simp only [List.nil_append, insertL]
    rw [if_pos hu]
    rfl
  | cons y pre ih =>
    rw [List.cons_append]
    rw [show insertL less x (y :: (pre ++ [u])) =
        (if less x y then x :: y :: (pre ++ [u]) else y :: insertL less x (pre ++ [u]))
      from rfl]
    rw [show insertL less x (y :: pre) =
        (if less x y then x :: y :: pre else y :: insertL less x pre) from rfl]
    by_cases h : less x y = true
    · rw [if_pos h, if_pos h]
      rfl
    · rw [if_neg h, if_neg h, ih]
      rfl

theorem insertL_filter_pos (less : α → α → Bool) (p : α → Bool)
    (hT1 : ∀ x y z, less x y = true → less z y = false → less x z = true)
    (hp : ∀ a b, p a = true → p b = true → less a b = false)
    (x : α) (hx : p x = true) :
    ∀ l : List α, l.Pairwise (fun u v => less v u = false) →
      (insertL less x l).filter p = l.filter p ++ [x] := by
  intro l
  induction l with
  | nil =>
    intro _
    simp [insertL, hx]
  | cons y l ih =>
    intro hs
    rw [List.pairwise_cons] at hs
    obtain ⟨hy, hl⟩ := hs
    rw [insertL]
    by_cases h : less x y = true
    · rw [if_pos h]
      have hnil : (y :: l).filter p = [] := by
        rw [List.filter_eq_nil_iff]
        intro b hb
        intro hpb
        rcases List.mem_cons.1 hb with h1 | h1
        · exact absurd (hp x b hx hpb) (by rw [h1, h]; simp)
        · exact absurd (hp x b hx hpb) (by rw [hT1 x y b h (hy b h1)]; simp)
      rw [List.filter_cons_of_pos hx, hnil]
      rfl
    · rw [if_neg h]
      by_cases hpy : p y = true
      · rw [List.filter_cons_of_pos hpy, List.filter_cons_of_pos hpy, ih hl]
        rfl
      · rw [List.filter_cons_of_neg (by simpa using hpy),
          List.filter_cons_of_neg (by simpa using hpy), ih hl]

theorem insertL_filter_neg (less : α → α → Bool) (p : α → Bool)
    (x : α) (hx : p x = false) :
    ∀ l : List α, (insertL less x l).filter p = l.filter p := by
  intro l
  induction l with
  | nil =>
    simp [insertL, hx]
  | cons y l ih =>
    rw [insertL]
    by_cases h : less x y = true
    · rw [if_pos h, List.filter_cons_of_neg (by simpa using hx)]
    · rw [if_neg h]
      by_cases hpy : p y = true
      · rw [List.filter_cons_of_pos hpy, List.filter_cons_of_pos hpy, ih]
      · rw [List.filter_cons_of_neg (by simpa using hpy),
          List.filter_cons_of_neg (by simpa using hpy), ih]

theorem isortL_foldl_invariant (less : α → α → Bool)
    (hT1 : ∀ x y z, less x y = true → less z y = false → less x z = true)
    (hT2 : ∀ x y z, less x y = true → less z y = false → less z x = false)
    (hIrr : ∀ x, less x x = false) :
    ∀ (l acc : List α), acc.Pairwise (fun u v => less v u = false) →
      (l.foldl (fun a x => insertL less x a) acc).Pairwise
          (fun u v => less v u = false) ∧
        ∀ p : α → Bool, (∀ a b, p a = true → p b = true → less a b = false) →
          (l.foldl (fun a x => insertL less x a) acc).filter p =
            acc.filter p ++ l.filter p := by
  intro l
  induction l with
  | nil =>
    intro acc hacc
    exact ⟨hacc, fun p _ => by simp⟩
  | cons x l ih =>
    intro acc hacc
    rw [List.foldl_cons]
    obtain ⟨hs, hf⟩ := ih (insertL less x acc) (insertL_sorted less hT2 hIrr x acc hacc)
    refine ⟨hs, ?_⟩
    intro p hp
    rw [hf p hp]
    by_cases hpx : p x = true
    · rw [insertL_filter_pos less p hT1 hp x hpx acc hacc,
        List.filter_cons_of_pos hpx, List.append_assoc]
      rfl
    · rw [insertL_filter_neg less p x (by simpa using hpx),
        List.filter_cons_of_neg (by simpa using hpx)]

/-! ### Bridge from the index-based Go insertion sort to the list-level
sort -/

theorem aget_append [Inhabited α] (pre : List α) (x : α) (post : List α) :
    aget (pre ++ x :: post) pre.length = x := by
  induction pre with
  | nil => rfl
  | cons a pre ih =>
    rw [List.cons_append, List.length_cons, aget, List.getD_cons_succ]
    exact ih

theorem aswap_cons [Inhabited α] (a : α) (l : List α) (i j : Nat) :
    aswap (a :: l) (i + 1) (j + 1) = a :: aswap l i j := by
  rw [aswap, aswap]
  by_cases h : i < l.length ∧ j < l.length
  · rw [if_pos h, if_pos (by simp; omega)]
    rw [aget, aget, aget, aget, List.getD_cons_succ, List.getD_cons_succ,
      List.set_cons_succ, List.set_cons_succ]
  · rw [if_neg h, if_neg (by simp; omega)]

theorem aswap_adjacent [Inhabited α] (pre : List α) (u x : α) (post : List α) :
    aswap (pre ++ u :: x :: post) (pre.length + 1) pre.length =
      pre ++ x :: u :: post := by
  induction pre with
  | nil =>
    rw [List.nil_append]
    rw [show ([] : List α).length = 0 from rfl]
    rw [aswap,
      if_pos (by constructor <;> (rw [List.length_cons, List.length_cons]; omega))]
    rfl
  | cons a pre ih =>
    rw [List.cons_append, List.length_cons]
    rw [show pre.length + 1 + 1 = (pre.length + 1) + 1 from rfl, aswap_cons]
    rw [ih]
    rfl

theorem insertionInner_bubble [Inhabited α] (less : α → α → Bool)
    (hT1 : ∀ x y z, less x y = true → less z y = false → less x z = true) :
    ∀ (pre : List α) (x : α) (post : List α),
      pre.Pairwise (fun u v => less v u = false) →
      insertionInner less 0 pre.length (pre ++ x :: post) =
        insertL less x pre ++ post := by
  intro pre
  induction pre using List.reverseRecOn with
  | nil =>
    intro x post _
    rfl
  | append_singleton pre' u ih =>
    intro x post hs
    have hs' : pre'.Pairwise (fun u v => less v u = false) :=
      (List.pairwise_append.1 hs).1
    have hlen : (pre' ++ [u]).length = pre'.length + 1 := by simp
    have hform : (pre' ++ [u]) ++ x :: post = pre' ++ u :: x :: post := by simp
    rw [hlen, hform, insertionInner]
    have hg1 : aget (pre' ++ u :: x :: post) (pre'.length + 1) = x := by
      rw [show pre' ++ u :: x :: post = (pre' ++ [u]) ++ x :: post by simp,
        show pre'.length + 1 = (pre' ++ [u]).length by simp]
      exact aget_append (pre' ++ [u]) x post
    have hg0 : aget (pre' ++ u :: x :: post) pre'.length = u :=
      aget_append pre' u (x :: post)
    rw [hg1, hg0]
    by_cases hxu : less x u = true
    · rw [if_pos ⟨Nat.succ_pos _, hxu⟩, aswap_adjacent, ih x (u :: post) hs']
      rw [insertL_append_beats less x u hxu]
      simp
    · rw [if_neg (by simp [hxu])]
      have hall : ∀ y ∈ pre' ++ [u], less x y = false := by
        intro y hy
        rcases List.mem_append.1 hy with h1 | h1
        · have hu_y : less u y = false := by
            have := (List.pairwise_append.1 hs).2.2
            exact this y h1 u (List.mem_singleton_self u)
          by_cases hxy : less x y = true
          · exact absurd (hT1 x y u hxy hu_y) (by simp [hxu])
          · simpa using hxy
        · rw [List.mem_singleton.1 h1]
          simpa using hxu
      rw [insertL_all_false less x (pre' ++ [u]) hall]
      simp

theorem insertionOuter_fold [Inhabited α] (less : α → α → Bool)
    (hT1 : ∀ x y z, less x y = true → less z y = false → less x z = true)
    (hT2 : ∀ x y z, less x y = true → less z y = false → less z x = false)
    (hIrr : ∀ x, less x x = false) :
    ∀ (rest acc : List α) (b : Nat), b = acc.length + rest.length →
      acc.Pairwise (fun u v => less v u = false) →
      insertionOuter less b 0 rest.length acc.length (acc ++ rest) =
        rest.foldl (fun a x => insertL less x a) acc := by
  intro rest
  induction rest with
  | nil =>
    intro acc b _ _
    rw [List.length_nil, insertionOuter, List.append_nil, List.foldl_nil]
  | cons x rest' ih =>
    intro acc b hb hacc
    rw [List.length_cons, insertionOuter,
      if_pos (by rw [hb, List.length_cons]; omega)]
    rw [insertionInner_bubble less hT1 acc x rest' hacc]
    have hlen : acc.length + 1 = (insertL less x acc).length := by
      rw [insertL_length]
    rw [hlen, ih (insertL less x acc) b
      (by rw [hb, insertL_length, List.length_cons]; omega)
      (insertL_sorted less hT2 hIrr x acc hacc)]
    rfl

theorem goInsertionSort_eq_isortL [Inhabited α] (less : α → α → Bool)
    (hT1 : ∀ x y z, less x y = true → less z y = false → less x z = true)
    (hT2 : ∀ x y z, less x y = true → less z y = false → less z x = false)
    (hIrr : ∀ x, less x x = false) (l : List α) :
    goInsertionSort less l 0 l.length = isortL less l := by
  cases l with
  | nil => rfl
  | cons x rest =>
    rw [goInsertionSort, List.length_cons,
      show rest.length + 1 - (0 + 1) = rest.length from by omega]
    exact insertionOuter_fold less hT1 hT2 hIrr rest [x] (rest.length + 1)
      (by rw [List.length_singleton]; omega) (by simp)

theorem goSortSlice_small [Inhabited α] (less : α → α → Bool) (l : List α)
    (h : l.length ≤ 12) :
    goSortSlice less l = goInsertionSort less l 0 l.length := by
  rw [goSortSlice,
    show 2 * (l.length + goBitsLen l.length + 2) =
      (2 * (l.length + goBitsLen l.length) + 3) + 1 from by ring,
    pdqsortRec]
  rw [if_pos (by omega)]

/-! ### The sort is the identity when the comparator rejects every pair

When every element of the slice (and the default element) belongs to a
class on which the comparator is constantly false — as happens when no
Accept token carries a quality value, so every quality is 1.0 — `sort.Slice`
returns its input unchanged: the insertion sort never swaps, and on longer
slices `choosePivot` counts no swaps, yielding an `increasing` hint, and
`partialInsertionSort` confirms the slice as sorted. -/

theorem aget_class [Inhabited α] (Q : α → Prop) (hQd : Q default)
    (l : List α) (hl : ∀ p ∈ l, Q p) (i : Nat) : Q (aget l i) := by
  rw [aget]
  by_cases h : i < l.length
  · rw [List.getD_eq_getElem l default h]
    exact hl _ (List.getElem_mem h)
  · rw [List.getD_eq_default l default (by omega)]
    exact hQd

theorem insertionInner_id [Inhabited α] (less : α → α → Bool) (Q : α → Prop)
    (hQd : Q default) (hfa : ∀ x y, Q x → Q y → less x y = false)
    (l : List α) (hl : ∀ p ∈ l, Q p) :
    ∀ i : Nat, insertionInner less 0 i l = l := by
  intro i
  cases i with
  | zero => rfl
  | succ j =>
    rw [insertionInner,
      if_neg (by
        rw [hfa (aget l (j + 1)) (aget l j) (aget_class Q hQd l hl (j + 1))
          (aget_class Q hQd l hl j)]
        simp)]

theorem insertionOuter_id [Inhabited α] (less : α → α → Bool) (Q : α → Prop)
    (hQd : Q default) (hfa : ∀ x y, Q x → Q y → less x y = false)
    (b : Nat) :
    ∀ (fuel i : Nat) (l : List α), (∀ p ∈ l, Q p) →
      insertionOuter less b 0 fuel i l = l := by
  intro fuel
  induction fuel with
  | zero =>
    intro i l _
    rfl
  | succ k ih =>
    intro i l hl
    rw [insertionOuter]
    by_cases h : i < b
    · rw [if_pos h, insertionInner_id less Q hQd hfa l hl i]
      exact ih (i + 1) l hl
    · rw [if_neg h]

theorem order2_id [Inhabited α] (less : α → α → Bool) (Q : α → Prop)
    (hQd : Q default) (hfa : ∀ x y, Q x → Q y → less x y = false)
    (l : List α) (hl : ∀ p ∈ l, Q p) (a b s : Nat) :
    order2 less l a b s = (a, b, s) := by
  rw [order2,
    if_neg (by
      rw [hfa (aget l b) (aget l a) (aget_class Q hQd l hl b)
        (aget_class Q hQd l hl a)]
      simp)]

theorem goMedian_id [Inhabited α] (less : α → α → Bool) (Q : α → Prop)
    (hQd : Q default) (hfa : ∀ x y, Q x → Q y → less x y = false)
    (l : List α) (hl : ∀ p ∈ l, Q p) (a b c s : Nat) :
    goMedian less l a b c s = (b, s) := by
  rw [goMedian, order2_id less Q hQd hfa l hl a b s]
  rw [show ((a, b, s) : Nat × Nat × Nat).2.1 = b from rfl,
    show ((a, b, s) : Nat × Nat × Nat).2.2 = s from rfl]
  rw [order2_id less Q hQd hfa l hl b c s]
  rw [order2_id less Q hQd hfa l hl a b s]

theorem goMedianAdjacent_id [Inhabited α] (less : α → α → Bool) (Q : α → Prop)
    (hQd : Q default) (hfa : ∀ x y, Q x → Q y → less x y = false)
    (l : List α) (hl : ∀ p ∈ l, Q p) (a s : Nat) :
    goMedianAdjacent less l a s = (a, s) := by
  rw [goMedianAdjacent]
  exact goMedian_id less Q hQd hfa l hl (a - 1) a (a + 1) s

theorem goChoosePivot_id [Inhabited α] (less : α → α → Bool) (Q : α → Prop)
    (hQd : Q default) (hfa : ∀ x y, Q x → Q y → less x y = false)
    (l : List α) (hl : ∀ p ∈ l, Q p) (a b : Nat) :
    goChoosePivot less l a b = (a + (b - a) / 4 * 2, GoHint.increasing) := by
  rw [goChoosePivot]
  by_cases h8 : 8 ≤ b - a
  · rw [if_pos h8]
    by_cases h50 : 50 ≤ b - a
    · rw [if_pos h50]
      simp only [goMedianAdjacent_id less Q hQd hfa l hl,
        goMedian_id less Q hQd hfa l hl]
    · rw [if_neg h50]
      simp only [goMedian_id less Q hQd hfa l hl]
  · rw [if_neg h8]

theorem paiAdvance_id [Inhabited α] (less : α → α → Bool) (Q : α → Prop)
    (hQd : Q default) (hfa : ∀ x y, Q x → Q y → less x y = false)
    (l : List α) (hl : ∀ p ∈ l, Q p) (b : Nat) :
    ∀ (fuel i : Nat), b - i ≤ fuel → i ≤ b →
      paiAdvance less l b fuel i = b := by
  intro fuel
  induction fuel with
  | zero =>
    intro i hfu hib
    rw [paiAdvance]
    omega
  | succ k ih =>
    intro i hfu hib
    rw [paiAdvance]
    by_cases h : i < b
    · rw [if_pos ⟨h, by
        rw [hfa (aget l i) (aget l (i - 1)) (aget_class Q hQd l hl i)
          (aget_class Q hQd l hl (i - 1))]
        simp⟩]
      exact ih (i + 1) (by omega) (by omega)
    · rw [if_neg (by intro hc; exact h hc.1)]
      omega

theorem goPartialInsertionSort_id [Inhabited α] (less : α → α → Bool)
    (Q : α → Prop) (hQd : Q default) (hfa : ∀ x y, Q x → Q y → less x y = false)
    (l : List α) (hl : ∀ p ∈ l, Q p) (a b : Nat) (hab : a + 1 ≤ b) :
    goPartialInsertionSort less l a b = (true, l) := by
  rw [goPartialInsertionSort, paiSteps,
    paiAdvance_id less Q hQd hfa l hl b (b + 1 - (a + 1)) (a + 1) (by omega) hab]
  rw [if_pos rfl]

theorem goBitsLen_pos (n : Nat) (h : 1 ≤ n) : goBitsLen n ≠ 0 := by
  obtain ⟨m, rfl⟩ : ∃ m, n = m + 1 := ⟨n - 1, by omega⟩
  rw [goBitsLen, bitsLenAux]
  exact Nat.succ_ne_zero _

theorem goSortSlice_id [Inhabited α] (less : α → α → Bool) (Q : α → Prop)
    (hQd : Q default) (hfa : ∀ x y, Q x → Q y → less x y = false)
    (l : List α) (hl : ∀ p ∈ l, Q p) :
    goSortSlice less l = l := by
  by_cases hn : l.length ≤ 12
  · rw [goSortSlice_small less l hn, goInsertionSort,
      insertionOuter_id less Q hQd hfa l.length (l.length - (0 + 1)) (0 + 1) l hl]
  · rw [goSortSlice,
      show 2 * (l.length + goBitsLen l.length + 2) =
        (2 * (l.length + goBitsLen l.length) + 3) + 1 from by ring,
      pdqsortRec]
    have hcp := goChoosePivot_id less Q hQd hfa l hl 0 l.length
    simp only [Nat.sub_zero, if_neg hn,
      if_neg (goBitsLen_pos l.length (by omega))]
    simp [hcp, goPartialInsertionSort_id less Q hQd hfa l hl 0 l.length (by omega)]

/-- C4 counterexample: `sort.Slice` is not stable. The header `accept13`
has thirteen tokens — `b` with quality 0.5 and `a1 … a12` with no quality
value (hence 1.0), all qualities inside the exactly-modelled decimal
range — so the claimed stable descending order is `a1 … a12, b`. Past
twelve elements Go's pdqsort leaves its insertion-sort regime: it picks the
tied token `a6` as pivot, the partition swaps it to the front in final
position, and the remaining twelve entries are insertion-sorted, so `a6`
ends up before `a1 … a5` against their input order. -/
theorem C4_counterexample_not_stable :
    parseAcceptHeader accept13 ≠
        ["a1", "a2", "a3", "a4", "a5", "a6", "a7", "a8", "a9", "a10", "a11",
         "a12", "b"] ∧
      parseAcceptHeader accept13 =
        ["a6", "a1", "a2", "a3", "a4", "a5", "a7", "a8", "a9", "a10", "a11",
         "a12", "b"] := by
  exact ⟨by decide, by decide⟩

/-- C4 amended: for headers of at most twelve comma-separated tokens whose
quality values stay inside the exactly-modelled plain-decimal syntax
(`qualitiesInScope` — where the model's comparisons coincide with the
program's `float64` comparisons), the candidates are sorted by descending
quality with ties preserving relative input order (Go `sort.Slice` uses
insertion sort below thirteen elements); beyond twelve tokens the sort may
reorder ties; and for every header in which no token carries a `";q="`
quality marker, the output preference order equals the input order of the
comma-separated tokens at any length. -/
theorem C4_sorted_stable_small_and_noq_identity (header : String) :
    ((goSplit header ',').length ≤ 12 → qualitiesInScope header = true →
       (goSortSlice qGreater (acceptPairs header)).Pairwise
           (fun u v => qGreater v u = false) ∧
         ∀ q : Qval,
           (goSortSlice qGreater (acceptPairs header)).filter
               (fun p => Qval.veq p.2 q) =
             (acceptPairs header).filter (fun p => Qval.veq p.2 q)) ∧
      ((∀ part ∈ goSplit header ',', hasSubstr part ";q=" = false) →
        parseAcceptHeader header =
          (goSplit header ',').map (fun part => goTrimSpace part)) := by
  constructor
  · intro hlen _hscope
    have hlen' : (acceptPairs header).length ≤ 12 := by
      rw [acceptPairs, List.length_map]
      exact hlen
    rw [goSortSlice_small qGreater _ hlen',
      goInsertionSort_eq_isortL qGreater qGreater_t1 qGreater_t2
        qGreater_irrefl, isortL]
    have hinv := isortL_foldl_invariant qGreater qGreater_t1 qGreater_t2
      qGreater_irrefl (acceptPairs header) [] List.Pairwise.nil
    refine ⟨hinv.1, ?_⟩
    intro q
    have hfilt := hinv.2 (fun p => Qval.veq p.2 q)
      (fun a b ha hb => qGreater_of_veq q a b ha hb)
    simpa using hfilt
  · intro hparts
    have hall : ∀ p ∈ acceptPairs header, p.2 = (⟨1, 0⟩ : Qval) := by
      intro p hp
      rw [acceptPairs] at hp
      obtain ⟨part, hpart, rfl⟩ := List.mem_map.1 hp
      rw [parsePart_no_marker part (hparts part hpart)]
    have hfa : ∀ x y : String × Qval, x.2 = (⟨1, 0⟩ : Qval) →
        y.2 = (⟨1, 0⟩ : Qval) → qGreater x y = false := by
      intro x y hx hy
      rw [qGreater, hx, hy]
      rfl
    rw [parseAcceptHeader,
      goSortSlice_id qGreater (fun p => p.2 = (⟨1, 0⟩ : Qval)) rfl hfa
        (acceptPairs header) hall,
      acceptPairs, List.map_map]
    exact List.map_congr_left
      (fun part hpart => by rw [Function.comp_apply,
        parsePart_no_marker part (hparts part hpart)])

/-- Witness for C4's amended statement at a two-token header with no
quality values: the output is descending-sorted and equals the input token
order. -/
theorem C4_sorted_stable_small_and_noq_identity_witness :
    ((goSortSlice qGreater (acceptPairs "text/html, application/json")).Pairwise
        (fun u v => qGreater v u = false) ∧
      ∀ q : Qval,
        (goSortSlice qGreater
            (acceptPairs "text/html, application/json")).filter
            (fun p => Qval.veq p.2 q) =
          (acceptPairs "text/html, application/json").filter
            (fun p => Qval.veq p.2 q)) ∧
      parseAcceptHeader "text/html, application/json" =
        ["text/html", "application/json"] := by
  have h := C4_sorted_stable_small_and_noq_identity "text/html, application/json"
  refine ⟨h.1 (by decide) (by decide), ?_⟩
  rw [h.2 (by decide)]
  rfl

end CustomError

